import Mathlib

/-!
# Verification of the `peek` log-collector core

Shallow embedding, in Lean 4, of the parts of the `peek` repository that the
frozen claims are about:

* the record model (`pkg/storage/types.go`),
* the parsers and the format detector (`pkg/parser/parser.go`,
  `pkg/parser/detector.go`),
* the Badger-backed store (`pkg/storage/badger.go`): keys, `Store`, `Query`,
  `Scan`, the delete operations and the retention sweep,
* the Lucene-style query compiler and evaluator (`pkg/query/lucene.go`),
* the WebSocket broadcast path (`pkg/server/server.go`).

Modelling conventions, used throughout:

* Go `time.Time` values are modelled by their `UnixNano()` value as an `Int`
  (the only way the store and the filters consume them).
* Go strings are Lean `String`s / `List Char`; the Go code indexes bytes,
  the model indexes characters, which agrees on ASCII data (every input that
  appears in a theorem below is ASCII).
* Effects that are external to the repository (the random ID generator, the
  wall clock, `encoding/json.Unmarshal`, RFC3339 parsing) are passed in as
  explicit arguments, so every definition stays executable and the theorems
  quantify over them.
* A Badger transaction (`db.Update`) is one atomic transition of the model
  state; keys written with `fmt.Sprintf` are modelled by the tuples of their
  formatted components (the `log:{ts}:{id}` / `index:level:{L}:{ts}:{id}`
  encodings are injective because a decimal number and a hex id contain no
  colon), while key *ordering* is computed on the rendered strings exactly as
  Badger orders byte slices.
-/

namespace Peek

/-- A scalar value held in a record's `fields` map
(Go `interface{}` as produced by the parsers; `fmt.Sprintf("%v", v)` is
`FieldValue.render`).  JSON/Go float values do not appear in any claim and
are not modelled. -/
inductive FieldValue where
  | str (s : String)
  | int (n : Int)
  | boolean (b : Bool)
  deriving DecidableEq, Repr

/-- Go's `fmt.Sprintf("%v", v)` on the scalars of `FieldValue`. -/
def FieldValue.render : FieldValue → String
  | .str s => s
  | .int n => toString n
  | .boolean b => if b then "true" else "false"

/-- `storage.LogEntry` (`pkg/storage/types.go`).  `timestamp` is the
`UnixNano()` instant; `fields` is the `map[string]interface{}` as an
association list with unique keys. -/
structure LogEntry where
  id : String
  timestamp : Int
  level : String
  message : String
  fields : List (String × FieldValue)
  raw : String
  deriving DecidableEq, Repr

/-- Lookup in a record's `fields` map (`entry.Fields[f]`). -/
def LogEntry.getField (e : LogEntry) (f : String) : Option FieldValue :=
  (e.fields.find? (fun kv => kv.1 = f)).map (·.2)

/-! ## Level normalization (`pkg/parser/parser.go`, `NormalizeLevel`) -/

/-- ASCII uppercase of one character (Go `strings.ToUpper` restricted to
ASCII, which covers every input appearing in a claim). -/
def upChar (c : Char) : Char :=
  if 'a' ≤ c ∧ c ≤ 'z' then Char.ofNat (c.toNat - 32) else c

/-- ASCII lowercase of one character (Go `strings.ToLower` on ASCII). -/
def lowChar (c : Char) : Char :=
  if 'A' ≤ c ∧ c ≤ 'Z' then Char.ofNat (c.toNat + 32) else c

/-- Go `strings.ToUpper` (ASCII). -/
def strUpper (s : String) : String := String.mk (s.toList.map upChar)

/-- Go `strings.ToLower` (ASCII). -/
def strLower (s : String) : String := String.mk (s.toList.map lowChar)

/-- An ASCII whitespace byte (Go `unicode.IsSpace` on ASCII). -/
def isSpaceChar (c : Char) : Bool :=
  c = ' ' || c = '\t' || c = '\n' || c = '\r' || c = Char.ofNat 11 || c = Char.ofNat 12

/-- Go `strings.TrimSpace` (ASCII). -/
def strTrim (s : String) : String :=
  String.mk (((s.toList.dropWhile isSpaceChar).reverse.dropWhile isSpaceChar).reverse)

/-- `parser.NormalizeLevel`: trim, uppercase, then map aliases to the
canonical level names. -/
def NormalizeLevel (level : String) : String :=
  let level := strUpper (strTrim level)
  if level = "ERROR" ∨ level = "ERR" then "ERROR"
  else if level = "WARN" ∨ level = "WARNING" then "WARN"
  else if level = "INFO" ∨ level = "INFORMATION" then "INFO"
  else if level = "DEBUG" ∨ level = "DBG" then "DEBUG"
  else if level = "TRACE" ∨ level = "TRC" then "TRACE"
  else if level = "FATAL" ∨ level = "CRITICAL" ∨ level = "CRIT" then "FATAL"
  else level

/-! ## Logfmt tokenizer (`pkg/parser/parser.go`, `parseLogfmt`) -/

/-- Go map assignment `result[key] = value`: overwrite the existing binding,
or append a new one. -/
def mapSet (m : List (String × String)) (k v : String) : List (String × String) :=
  if m.any (fun kv => kv.1 = k) then
    m.map (fun kv => if kv.1 = k then (k, v) else kv)
  else m ++ [(k, v)]

/-- Go map read `m[k]` (Go maps have unique keys, so `find?` is exact). -/
def mapGet {α : Type} (m : List (String × α)) (k : String) : Option α :=
  (m.find? (fun kv => kv.1 = k)).map (·.2)

/-- Go `delete(m, k)`. -/
def mapDel {α : Type} (m : List (String × α)) (k : String) : List (String × α) :=
  m.filter (fun kv => kv.1 ≠ k)

/-- The quoted-value inner loop of `parseLogfmt`, entered just after the
opening `"`.  Returns the decoded value characters and the rest of the line.
A lone trailing backslash is emitted verbatim and an unterminated quote runs
to the end of the line, exactly as the Go loop does. -/
def quotedValue : List Char → List Char × List Char
  | [] => ([], [])
  | c :: cs =>
    if c = '\\' ∧ cs ≠ [] then
      match cs with
      | d :: cs' => let (v, r) := quotedValue cs'; (d :: v, r)
      | [] => ([], [])
    else if c = '"' then ([], cs)
    else let (v, r) := quotedValue cs; (c :: v, r)

/-- One pass of the outer `for i < n` loop of `parseLogfmt`, on the unread
suffix of the line.  `fuel` only guards Lean's termination checker; every
iteration of the Go loop consumes at least one byte, so `length + 1` fuel
(supplied by `parseLogfmt`) is never exhausted. -/
def logfmtLoop : Nat → List Char → List (String × String) → List (String × String)
  | 0, _, acc => acc
  | fuel + 1, cs, acc =>
    let cs := cs.dropWhile (· = ' ')
    if cs.isEmpty then acc
    else
      let key := String.mk (cs.takeWhile (fun c => ¬(c = '=' ∨ c = ' ')))
      match cs.dropWhile (fun c => ¬(c = '=' ∨ c = ' ')) with
      | [] => acc
      | c :: rest =>
        if c ≠ '=' then logfmtLoop fuel (c :: rest) acc
        else
          match rest with
          | [] => mapSet acc key ""
          | d :: rest' =>
            if d = '"' then
              let (v, r) := quotedValue rest'
              logfmtLoop fuel r (mapSet acc key (String.mk v))
            else
              let value := String.mk ((d :: rest').takeWhile (· ≠ ' '))
              logfmtLoop fuel ((d :: rest').dropWhile (· ≠ ' ')) (mapSet acc key value)

/-- `parser.parseLogfmt`: tokenize a logfmt line into its key/value map. -/
def parseLogfmt (line : String) : List (String × String) :=
  logfmtLoop (line.length + 1) line.toList []

/-! ## Acceptance predicates and parsing (`pkg/parser/parser.go`) -/

/-- Go `strings.Contains`. -/
def strContains (s sub : String) : Bool :=
  (s.toList.tails).any (fun t => sub.toList.isPrefixOf t)

/-- `LogfmtParser.CanParse`: the line contains `msg=`, or `level=` together
with one of `source=`, `time=`, `error=`. -/
def logfmtCanParse (line : String) : Bool :=
  strContains line "msg=" ||
    (strContains line "level=" &&
      (strContains line "source=" || strContains line "time=" || strContains line "error="))

/-- The timestamp-extraction phase of `LogfmtParser.Parse` (`parser.go`
lines 119–138).  `pN`/`p1` model `time.Parse` with `time.RFC3339Nano` /
`time.RFC3339` (`some` iff Go returns a nil error).  Try `time` with both
layouts; if still unset, try `timestamp` with the Nano layout only; a
consulted key is deleted even when its value fails to parse. -/
def logfmtTsPhase (pN p1 : String → Option Int)
    (fields : List (String × String)) : Option Int × List (String × String) :=
  let (ts0, fields) :=
    match mapGet fields "time" with
    | some v =>
      (match pN v with
       | some t => some t
       | none => p1 v, mapDel fields "time")
    | none => (none, fields)
  match ts0 with
  | some t => (some t, fields)
  | none =>
    match mapGet fields "timestamp" with
    | some v => (pN v, mapDel fields "timestamp")
    | none => (none, fields)

/-- `LogfmtParser.Parse`: tokenize, extract timestamp/level/message, keep
the rest as fields.  `now` is the ingest wall clock, `newId` the generated
random id. -/
def logfmtParse (pN p1 : String → Option Int) (now : Int) (newId : String)
    (line : String) : LogEntry :=
  let fields := parseLogfmt line
  let (ts1, fields) := logfmtTsPhase pN p1 fields
  let timestamp := ts1.getD now
  let (level, fields) :=
    match mapGet fields "level" with
    | some v => (NormalizeLevel v, mapDel fields "level")
    | none => ("INFO", fields)
  let (message, fields) :=
    match mapGet fields "msg" with
    | some v => (v, mapDel fields "msg")
    | none =>
      match mapGet fields "message" with
      | some v => (v, mapDel fields "message")
      | none => ("", fields)
  { id := newId, timestamp, level, message,
    fields := fields.map (fun kv => (kv.1, FieldValue.str kv.2)), raw := line }

/-- A decoded JSON value, as `encoding/json.Unmarshal` produces it into
`map[string]interface{}`.  Numbers do not appear in any claim and are
modelled as exact integers. -/
inductive JsonValue where
  | str (s : String)
  | num (n : Int)
  | boolean (b : Bool)
  | null
  | arr (xs : List JsonValue)
  | obj (ms : List (String × JsonValue))

/-- The `interface{}` value a decoded JSON member contributes to
`entry.Fields`.  Composite values (null/array/object) are carried opaquely;
no claim inspects their rendering. -/
def JsonValue.toFieldValue : JsonValue → FieldValue
  | .str s => .str s
  | .num n => .int n
  | .boolean b => .boolean b
  | .null => .str "<nil>"
  | .arr _ => .str "<array>"
  | .obj _ => .str "<object>"

/-- Go `obj[k].(string)`: the member exists *and* is a string. -/
def objGetStr (obj : List (String × JsonValue)) (k : String) : Option String :=
  match mapGet obj k with
  | some (JsonValue.str s) => some s
  | _ => none

/-- Go `delete(obj, k)`. -/
def objDel (obj : List (String × JsonValue)) (k : String) : List (String × JsonValue) :=
  mapDel obj k

/-- The timestamp-extraction phase of `JSONParser.Parse` (`parser.go`
lines 46–57): `timestamp` first, else `time`, each only when the member is
a string; the consulted key is deleted even when its value fails to parse
with the `time.RFC3339` layout (`p1`). -/
def jsonTsPhase (p1 : String → Option Int)
    (obj : List (String × JsonValue)) : Option Int × List (String × JsonValue) :=
  match objGetStr obj "timestamp" with
  | some ts => (p1 ts, objDel obj "timestamp")
  | none =>
    match objGetStr obj "time" with
    | some ts => (p1 ts, objDel obj "time")
    | none => (none, obj)

/-- The body of `JSONParser.Parse` on the already-decoded object
(`parser.go` lines 40–89).  Note the level branch applies `strings.ToUpper`
directly, not `NormalizeLevel`. -/
def jsonParseObj (p1 : String → Option Int) (now : Int) (newId : String)
    (line : String) (obj : List (String × JsonValue)) : LogEntry :=
  let (ts0, obj) := jsonTsPhase p1 obj
  let timestamp := ts0.getD now
  let (level, obj) :=
    match objGetStr obj "level" with
    | some l => (strUpper l, objDel obj "level")
    | none =>
      match objGetStr obj "severity" with
      | some l => (strUpper l, objDel obj "severity")
      | none => ("INFO", obj)
  let (message, obj) :=
    match objGetStr obj "message" with
    | some m => (m, objDel obj "message")
    | none =>
      match objGetStr obj "msg" with
      | some m => (m, objDel obj "msg")
      | none => ("", obj)
  { id := newId, timestamp, level, message,
    fields := obj.map (fun kv => (kv.1, kv.2.toFieldValue)), raw := line }

/-- `JSONParser.CanParse`: `json.Unmarshal` into a map succeeds.  `decode`
models `encoding/json.Unmarshal` (an external library call): `some` iff the
line is a valid JSON object. -/
def jsonCanParse (decode : String → Option (List (String × JsonValue)))
    (line : String) : Bool :=
  (decode line).isSome

/-- `JSONParser.Parse` on the raw line. -/
def jsonParserParse (decode : String → Option (List (String × JsonValue)))
    (p1 : String → Option Int) (now : Int) (newId : String)
    (line : String) : Except String LogEntry :=
  match decode line with
  | some obj => .ok (jsonParseObj p1 now newId line obj)
  | none => .error "invalid JSON"

/-! ## Format detector (`pkg/parser/detector.go`) -/

/-- `Detector.Parse`: try logfmt, then JSON; if neither accepts, produce the
raw-fallback record (note its level is `"INFO"`). -/
def detectorParse (decode : String → Option (List (String × JsonValue)))
    (pN p1 : String → Option Int) (now : Int) (newId : String)
    (line : String) : Except String LogEntry :=
  if logfmtCanParse line then .ok (logfmtParse pN p1 now newId line)
  else if jsonCanParse decode line then jsonParserParse decode p1 now newId line
  else .ok { id := newId, timestamp := now, level := "INFO", message := line,
             fields := [], raw := line }

/-- `Detector.ParseWithFormat`: select the parser by name, reject the line
when its `CanParse` refuses it, otherwise parse. -/
def parseWithFormat (decode : String → Option (List (String × JsonValue)))
    (pN p1 : String → Option Int) (now : Int) (newId : String)
    (line format : String) : Except String LogEntry :=
  if format = "json" then
    if !jsonCanParse decode line then .error ("line does not match format " ++ format)
    else jsonParserParse decode p1 now newId line
  else if format = "logfmt" then
    if !logfmtCanParse line then .error ("line does not match format " ++ format)
    else .ok (logfmtParse pN p1 now newId line)
  else if format = "auto" then detectorParse decode pN p1 now newId line
  else .error ("unknown format: " ++ format)

/-- Whether a parse attempt succeeded (`err == nil` in Go). -/
def parseOk : Except String LogEntry → Bool
  | .ok _ => true
  | .error _ => false

/-! ## Compiled filters and their evaluator (`pkg/query/lucene.go`) -/

/-- A very small exact decimal parser standing in for Go
`strconv.ParseFloat` on the numeric strings a `NumericRangeFilter` can meet:
optional sign, digits, optional fractional digits.  Exponents and float
rounding are outside every claim and are not modelled. -/
def parseDecRat (s : String) : Option Rat :=
  let (neg, cs) :=
    match s.toList with
    | '-' :: cs => (true, cs)
    | '+' :: cs => (false, cs)
    | cs => (false, cs)
  let intPart := cs.takeWhile (fun c => c.isDigit)
  let rest := cs.dropWhile (fun c => c.isDigit)
  let digitsVal : List Char → Nat :=
    fun ds => ds.foldl (fun acc c => acc * 10 + (c.toNat - 48)) 0
  match intPart, rest with
  | [], _ => none
  | _, [] =>
    let q : Rat := (digitsVal intPart : Int)
    some (if neg then -q else q)
  | _, '.' :: frac =>
    if frac ≠ [] ∧ frac.all (fun c => c.isDigit) then
      let q : Rat := (digitsVal intPart : Int) + (digitsVal frac : Int) / ((10 : Rat) ^ frac.length)
      some (if neg then -q else q)
    else none
  | _, _ => none

/-- The compiled filter tree (`lucene.go`): `AllFilter`, `AndFilter`,
`OrFilter`, `NotFilter`, `FieldFilter`, `KeywordFilter`, `WildcardFilter`,
`TimestampRangeFilter`, `NumericRangeFilter`.  Range bounds of value
`time.Time{}` (the zero time, meaning unbounded) are `none`. -/
inductive Filter where
  | all
  | and (left right : Filter)
  | or (left right : Filter)
  | not (inner : Filter)
  | field (name value : String) (exact : Bool)
  | keyword (k : String)
  | wildcard (name pattern : String)
  | tsRange (start stop : Option Int)
  | numRange (name : String) (start stop : Rat)
  deriving DecidableEq, Repr

/-- Field resolution shared by `FieldFilter.Match` and
`WildcardFilter.Match`: `level` → record level, `message` → record message,
otherwise `entry.Fields[name]` rendered with `%v`; a missing field is no
match. -/
def fieldResolve (e : LogEntry) (name : String) : Option String :=
  if name = "level" then some e.level
  else if name = "message" then some e.message
  else (e.getField name).map FieldValue.render

/-- Numeric resolution of `NumericRangeFilter.Match`: float64 and int
values pass through, strings go through `strconv.ParseFloat`, anything else
(and a missing field) is no match. -/
def numResolve (e : LogEntry) (name : String) : Option Rat :=
  match e.getField name with
  | some (.int n) => some (n : Rat)
  | some (.str s) => parseDecRat s
  | _ => none

/-- Anchored case-insensitive `*`-wildcard matching.  The source converts
the pattern to the regex `(?i)^{pattern with * ↦ .*}$`; for patterns free
of further regex metacharacters (all that occur in this development) that
is exactly glob matching. -/
def globMatch : List Char → List Char → Bool
  | [], s => s.isEmpty
  | c :: ps, s =>
    if c = '*' then
      globMatch ps s ||
        (match s with
         | [] => false
         | _ :: tl => globMatch (c :: ps) tl)
    else
      match s with
      | [] => false
      | d :: tl => c = d && globMatch ps tl
termination_by ps s => (ps.length, s.length)

/-- `Filter.Match` (`lucene.go` lines 344–506), one case per filter
variant. -/
def Filter.Match : Filter → LogEntry → Bool
  | .all, _ => true
  | .and l r, e => l.Match e && r.Match e
  | .or l r, e => l.Match e || r.Match e
  | .not f, e => !(f.Match e)
  | .field name value exact, e =>
    match fieldResolve e name with
    | none => false
    | some s => if exact then s = value else strContains (strLower s) (strLower value)
  | .keyword k, e =>
    strContains (strLower e.message) (strLower k) ||
      e.fields.any (fun kv => strContains (strLower kv.2.render) (strLower k))
  | .wildcard name pattern, e =>
    match fieldResolve e name with
    | none => false
    | some s => globMatch (strLower pattern).toList (strLower s).toList
  | .tsRange st en, e =>
    !(match st with | some s => decide (e.timestamp < s) | none => false)
      && !(match en with | some s => decide (s < e.timestamp) | none => false)
  | .numRange name st en, e =>
    match numResolve e name with
    | none => false
    | some q => decide (st ≤ q) && decide (q ≤ en)

/-! ## Broadcast fan-out (`pkg/server/server.go`) -/

/-- Capacity of a subscriber's outbound channel
(`make(chan *storage.LogEntry, 100)`, `server.go` line 179). -/
def sendCap : Nat := 100

/-- A connected client as `Server.BroadcastLog` sees it: the compiled
filter (nil until the first subscribe) and the buffered outbound channel,
modelled as the list of queued entries. -/
structure Client where
  filter : Option Filter
  send : List LogEntry
  deriving Repr

/-- `c.filter == nil || c.filter.Match(entry)`. -/
def clientAccepts (c : Client) (e : LogEntry) : Bool :=
  match c.filter with
  | none => true
  | some f => f.Match e

/-- The per-client body of the `BroadcastLog` loop: non-blocking send
(`select` with a `default` arm) onto the bounded channel — enqueue when
there is room, drop the entry otherwise. -/
def broadcastOne (e : LogEntry) (c : Client) : Client :=
  if clientAccepts c e then
    if c.send.length < sendCap then { c with send := c.send ++ [e] } else c
  else c

/-- `Server.BroadcastLog` (`server.go` lines 293–306): visit every
registered client and attempt the non-blocking delivery. -/
def broadcastLog (clients : List Client) (e : LogEntry) : List Client :=
  clients.map (broadcastOne e)

/-! ## Store keys (`pkg/storage/badger.go`)

`fmt.Sprintf("%s%d:%s", logPrefix, ts, id)` renders the primary key
`log:{timestamp_nano}:{id}`; the by-level index key is
`index:level:{LEVEL}:{timestamp_nano}:{id}`.  Keys are carried as the tuples
of their components; `pkeyStr`/`ikeyStr` render them to the byte strings
Badger actually compares. -/

/-- One decimal digit. -/
def digitChar : Nat → Char
  | 0 => '0' | 1 => '1' | 2 => '2' | 3 => '3' | 4 => '4'
  | 5 => '5' | 6 => '6' | 7 => '7' | 8 => '8' | 9 => '9'
  | _ => '?'

/-- Fuel-guarded base-10 rendering; `n / 10 < n`, so any fuel above `n`
gives the full numeral (structural recursion keeps the kernel able to
evaluate it). -/
def decCharsAux : Nat → Nat → List Char
  | 0, _ => []
  | fuel + 1, n =>
    if n < 10 then [digitChar n]
    else decCharsAux fuel (n / 10) ++ [digitChar (n % 10)]

/-- The base-10 numeral of a natural number, most significant digit first,
no leading zeros (the digits `fmt.Sprintf("%d", n)` emits). -/
def decChars (n : Nat) : List Char := decCharsAux (n + 1) n

/-- `fmt.Sprintf("%d", i)` for a signed integer. -/
def intDecChars (n : Int) : List Char :=
  if n < 0 then '-' :: decChars (-n).toNat else decChars n.toNat

/-- The rendered primary key `log:{ts}:{id}`, as the byte sequence Badger
compares (`<` on `List Char` is exactly core `String.lt` on the packed
string). -/
def pkeyStr (k : Int × String) : List Char :=
  ("log:".toList ++ intDecChars k.1) ++ ':' :: k.2.toList

/-- The rendered by-level index key `index:level:{LEVEL}:{ts}:{id}`. -/
def ikeyStr (k : String × Int × String) : List Char :=
  (("index:level:".toList ++ k.1.toList) ++ ':' :: intDecChars k.2.1)
    ++ ':' :: k.2.2.toList

/-! ## The store state and its operations (`pkg/storage/badger.go`)

The Badger keyspace restricted to the two prefixes, as two association
lists kept sorted by rendered key (Badger iterates keys in byte order);
`txn.Set` on an existing byte key overwrites. -/

/-- Sorted-keyspace insert (`txn.Set`): position and overwrite are decided
by the rendered key string, exactly as Badger compares byte keys. -/
def insSorted {κ ν : Type} (key : κ → List Char) (k : κ) (v : ν) :
    List (κ × ν) → List (κ × ν)
  | [] => [(k, v)]
  | (k2, v2) :: rest =>
    if key k < key k2 then (k, v) :: (k2, v2) :: rest
    else if key k = key k2 then (k, v) :: rest
    else (k2, v2) :: insSorted key k v rest

/-- Batched `txn.Delete` over a collected list of rendered keys. -/
def delKeys {κ ν : Type} (key : κ → List Char) (ks : List (List Char))
    (l : List (κ × ν)) : List (κ × ν) :=
  l.filter (fun kv => ¬ key kv.1 ∈ ks)

/-- The store state: primary entries under `log:` and the by-level index
under `index:level:`, each sorted by rendered key. -/
structure DB where
  primary : List ((Int × String) × LogEntry)
  index : List ((String × Int × String) × String)

/-- The empty store. -/
def DB.empty : DB := { primary := [], index := [] }

/-- The by-level index key the source derives from a stored entry's value
(`fmt.Sprintf("%s%s:%d:%s", levelIndexPrefix, entry.Level,
entry.Timestamp.UnixNano(), entry.ID)`). -/
def twinKey (kv : (Int × String) × LogEntry) : String × Int × String :=
  (kv.2.level, kv.2.timestamp, kv.2.id)

/-- `BadgerStorage.Store` (`badger.go` lines 85–132): one `db.Update`
transaction writing the primary entry under `log:{ts}:{id}` and the level
index entry under `index:level:{L}:{ts}:{id}` with value `entry.ID`. -/
def DB.store (db : DB) (e : LogEntry) : DB :=
  { primary := insSorted pkeyStr (e.timestamp, e.id) e db.primary,
    index := insSorted ikeyStr (e.level, e.timestamp, e.id) e.id db.index }

/-- The shared shape of every bulk delete: a collected selection of primary
entries is removed, together with the index keys derived from the selected
entries' values, in one `db.Update` transaction. -/
def DB.bulkDelete (db : DB) (sel : List ((Int × String) × LogEntry)) : DB :=
  { primary := delKeys pkeyStr (sel.map (fun kv => pkeyStr kv.1)) db.primary,
    index := delKeys ikeyStr (sel.map (fun kv => ikeyStr (twinKey kv))) db.index }

/-- `BadgerStorage.DeleteAll` (lines 448–495): collect every `log:` key and
every `index:level:` key, delete them all, return the primary count. -/
def DB.deleteAll (db : DB) : DB × Nat :=
  ({ primary := delKeys pkeyStr (db.primary.map (fun kv => pkeyStr kv.1)) db.primary,
     index := delKeys ikeyStr (db.index.map (fun kv => ikeyStr kv.1)) db.index },
   db.primary.length)

/-- `BadgerStorage.DeleteByLevel` (lines 498–561): scan the primary
entries, select those whose stored value has the given level, delete them
and their value-derived index twins. -/
def DB.deleteByLevel (db : DB) (level : String) : DB × Nat :=
  let sel := db.primary.filter (fun kv => kv.2.level = level)
  (db.bulkDelete sel, sel.length)

/-- `BadgerStorage.DeleteOlderThan` (lines 564–631) and the retention
helper `deleteEntriesOlderThan` (lines 329–389): select the primary entries
whose key timestamp (recovered from the key string with `Sscanf "%d"`,
which inverts the decimal rendering) is strictly below the cutoff, delete
them and their value-derived index twins. -/
def DB.deleteOlderThan (db : DB) (cutoff : Int) : DB × Nat :=
  let sel := db.primary.filter (fun kv => kv.1.1 < cutoff)
  (db.bulkDelete sel, sel.length)

/-- The collection loop of `deleteOldestEntries` (lines 274–306): walk the
primary entries in key order, always take the current one, stop once the
accumulated `EstimatedSize` (`esz`) reaches `targetBytes`. -/
def collectOldest (esz : LogEntry → Nat) (target : Int) :
    List ((Int × String) × LogEntry) → Int → List ((Int × String) × LogEntry)
  | [], _ => []
  | kv :: rest, acc =>
    let acc2 := acc + esz kv.2
    kv :: (if target ≤ acc2 then [] else collectOldest esz target rest acc2)

/-- `BadgerStorage.deleteOldestEntries` (lines 269–326). -/
def DB.deleteOldestEntries (esz : LogEntry → Nat) (db : DB) (target : Int) : DB :=
  db.bulkDelete (collectOldest esz target db.primary 0)

/-- `BadgerStorage.enforceRetention` (lines 246–266).  `currentSize` is the
engine's on-disk size (`db.Size()`), supplied from outside; the size branch
computes `int(float64(currentSize-retentionSize) * 1.2)`, the exact
rational `⌊overage·12/10⌋` (for every size appearing in a theorem below the
float64 computation rounds to the same integer); `timeCutoff` is
`now.AddDate(0,0,-retentionDays)`. -/
def DB.enforceRetention (esz : LogEntry → Nat)
    (retentionSize retentionDays currentSize timeCutoff : Int) (db : DB) : DB :=
  if retentionSize > 0 ∧ currentSize > retentionSize then
    DB.deleteOldestEntries esz db ((currentSize - retentionSize) * 12 / 10)
  else if retentionDays > 0 then (db.deleteOlderThan timeCutoff).1
  else db

/-- Forward iteration over all values stored under the `log:` prefix, in
key order (`BadgerStorage.Scan`, lines 706–729). -/
def DB.scanEntries (db : DB) : List LogEntry :=
  db.primary.map (fun kv => kv.2)

/-- The iteration loop of `BadgerStorage.Query` (lines 135–188) with its
three accumulators: collected page, match count, skip count. -/
def queryLoop (m : LogEntry → Bool) (limit offset : Nat) :
    List LogEntry → List LogEntry → Nat → Nat → List LogEntry × Nat
  | [], entries, total, _ => (entries, total)
  | e :: rest, entries, total, skipped =>
    if ¬ m e then queryLoop m limit offset rest entries total skipped
    else if skipped < offset then
      queryLoop m limit offset rest entries (total + 1) (skipped + 1)
    else if entries.length < limit then
      queryLoop m limit offset rest (entries ++ [e]) (total + 1) skipped
    else queryLoop m limit offset rest entries (total + 1) skipped

/-- `BadgerStorage.Query`: forward scan of the primary prefix, filter,
count every match into `total`, return the page honoring offset/limit.
The `Filter` interface is its `Match` function. -/
def DB.query (db : DB) (m : LogEntry → Bool) (limit offset : Nat) :
    List LogEntry × Nat :=
  queryLoop m limit offset db.scanEntries [] 0 0

/-! ## The Lucene-style query string parser (`pkg/query/lucene.go`)

The recursive-descent `parser` struct: a fixed input and a byte position.
`pTime`/`pNum` model `parseTimeValue`/`parseNumericValue` (both lean on
`time.Parse`, `time.Now` and `strconv.ParseFloat`; `pTime` returns `none`
for the zero time).  The mutual recursion is guarded by fuel: every Go loop
iteration advances the position, so the generous fuel the top level passes
is never exhausted on any input a theorem mentions. -/

/-- Parser state (`parser` struct: `input`, `pos`). -/
structure QP where
  input : List Char
  pos : Nat

/-- `p.peek(str)`. -/
def qpPeekStr (p : QP) (s : List Char) : Bool :=
  s.isPrefixOf (p.input.drop p.pos)

/-- `p.peekChar(ch)`. -/
def qpPeekChar (p : QP) (c : Char) : Bool :=
  match p.input.drop p.pos with
  | [] => false
  | d :: _ => d = c

/-- `p.consume(n)`. -/
def qpConsume (p : QP) (n : Nat) : QP := { p with pos := p.pos + n }

/-- `p.skipWhitespace()`. -/
def qpSkipWs (p : QP) : QP :=
  { p with pos := p.pos + ((p.input.drop p.pos).takeWhile (fun c => c = ' ')).length }

/-- `p.readToken()`: a quoted run (quotes included), a bracketed run
(brackets included), or a run up to whitespace/parenthesis. -/
def qpReadToken (p : QP) : String × QP :=
  let rest := p.input.drop p.pos
  match rest with
  | '"' :: tl =>
    let body := tl.takeWhile (fun c => c ≠ '"')
    let consumed := 1 + body.length + (if body.length < tl.length then 1 else 0)
    (String.mk (rest.take consumed), qpConsume p consumed)
  | '[' :: tl =>
    let body := tl.takeWhile (fun c => c ≠ ']')
    let consumed := 1 + body.length + (if body.length < tl.length then 1 else 0)
    (String.mk (rest.take consumed), qpConsume p consumed)
  | _ =>
    let body := rest.takeWhile (fun c => ¬(c = ' ' ∨ c = '(' ∨ c = ')'))
    (String.mk body, qpConsume p body.length)

/-- `strings.SplitN(token, ":", 2)` for a token known to contain a colon. -/
def splitColon1 (s : String) : String × String :=
  let a := s.toList.takeWhile (fun c => c ≠ ':')
  match s.toList.dropWhile (fun c => c ≠ ':') with
  | ':' :: r => (String.mk a, String.mk r)
  | _ => (s, "")

/-- `strings.Trim(value, "\"")`: strip leading and trailing quote runs. -/
def trimQuotes (s : String) : String :=
  String.mk (((s.toList.dropWhile (fun c => c = '"')).reverse.dropWhile
    (fun c => c = '"')).reverse)

/-- `strings.Split` by a non-empty separator, leftmost-first. -/
def splitSepAux (sep : List Char) : Nat → List Char → List Char → List (List Char)
  | 0, acc, _ => [acc.reverse]
  | fuel + 1, acc, l =>
    if sep.isPrefixOf l then acc.reverse :: splitSepAux sep fuel [] (l.drop sep.length)
    else
      match l with
      | [] => [acc.reverse]
      | c :: tl => splitSepAux sep fuel (c :: acc) tl

/-- `strings.Split(s, sep)`. -/
def splitSep (sep l : List Char) : List (List Char) :=
  splitSepAux sep (l.length + 1) [] l

/-- `parser.parseRange` (`lucene.go` lines 184–211). -/
def qpParseRange (pTime : String → Option Int) (pNum : String → Rat)
    (field rangeStr : String) : Except String Filter :=
  let l1 := if ("[".toList).isPrefixOf rangeStr.toList
    then rangeStr.toList.drop 1 else rangeStr.toList
  let l2 := if ("]".toList).isSuffixOf l1 then l1.take (l1.length - 1) else l1
  match splitSep " TO ".toList l2 with
  | [s, e] =>
    let s := strTrim (String.mk s)
    let e := strTrim (String.mk e)
    if field = "timestamp" then Except.ok (Filter.tsRange (pTime s) (pTime e))
    else Except.ok (Filter.numRange field (pNum s) (pNum e))
  | _ => Except.error "invalid range format"

mutual

/-- `parser.parseOr`. -/
def qpParseOr (pTime : String → Option Int) (pNum : String → Rat) :
    Nat → QP → Except String (Filter × QP)
  | 0, _ => Except.error "out of fuel"
  | fuel + 1, p =>
    match qpParseAnd pTime pNum fuel p with
    | Except.error e => Except.error e
    | Except.ok (left, p) => qpParseOrLoop pTime pNum fuel left p

/-- The `for` loop of `parseOr`. -/
def qpParseOrLoop (pTime : String → Option Int) (pNum : String → Rat) :
    Nat → Filter → QP → Except String (Filter × QP)
  | 0, _, _ => Except.error "out of fuel"
  | fuel + 1, left, p =>
    let p := qpSkipWs p
    if qpPeekStr p "OR".toList then
      match qpParseAnd pTime pNum fuel (qpSkipWs (qpConsume p 2)) with
      | Except.error e => Except.error e
      | Except.ok (right, p2) => qpParseOrLoop pTime pNum fuel (Filter.or left right) p2
    else Except.ok (left, p)

/-- `parser.parseAnd`. -/
def qpParseAnd (pTime : String → Option Int) (pNum : String → Rat) :
    Nat → QP → Except String (Filter × QP)
  | 0, _ => Except.error "out of fuel"
  | fuel + 1, p =>
    match qpParseNot pTime pNum fuel p with
    | Except.error e => Except.error e
    | Except.ok (left, p) => qpParseAndLoop pTime pNum fuel left p

/-- The `for` loop of `parseAnd`, including the implicit-AND branch. -/
def qpParseAndLoop (pTime : String → Option Int) (pNum : String → Rat) :
    Nat → Filter → QP → Except String (Filter × QP)
  | 0, _, _ => Except.error "out of fuel"
  | fuel + 1, left, p =>
    let p := qpSkipWs p
    if qpPeekStr p "AND".toList then
      match qpParseNot pTime pNum fuel (qpSkipWs (qpConsume p 3)) with
      | Except.error e => Except.error e
      | Except.ok (right, p2) => qpParseAndLoop pTime pNum fuel (Filter.and left right) p2
    else if p.pos < p.input.length ∧ ¬ qpPeekStr p "OR".toList
        ∧ ¬ qpPeekStr p ")".toList then
      match qpParseNot pTime pNum fuel p with
      | Except.error e => Except.error e
      | Except.ok (right, p2) => qpParseAndLoop pTime pNum fuel (Filter.and left right) p2
    else Except.ok (left, p)

/-- `parser.parseNot`. -/
def qpParseNot (pTime : String → Option Int) (pNum : String → Rat) :
    Nat → QP → Except String (Filter × QP)
  | 0, _ => Except.error "out of fuel"
  | fuel + 1, p =>
    let p := qpSkipWs p
    if qpPeekStr p "NOT".toList then
      match qpParsePrimary pTime pNum fuel (qpSkipWs (qpConsume p 3)) with
      | Except.error e => Except.error e
      | Except.ok (f, p2) => Except.ok (Filter.not f, p2)
    else qpParsePrimary pTime pNum fuel p

/-- `parser.parsePrimary` (`lucene.go` lines 131–182): parenthesized group,
`field:value` (range / quoted / wildcard / substring), or keyword. -/
def qpParsePrimary (pTime : String → Option Int) (pNum : String → Rat) :
    Nat → QP → Except String (Filter × QP)
  | 0, _ => Except.error "out of fuel"
  | fuel + 1, p =>
    let p := qpSkipWs p
    if qpPeekChar p '(' then
      match qpParseOr pTime pNum fuel (qpConsume p 1) with
      | Except.error e => Except.error e
      | Except.ok (f, p2) =>
        let p2 := qpSkipWs p2
        if qpPeekChar p2 ')' then Except.ok (f, qpConsume p2 1)
        else Except.error "expected closing parenthesis"
    else
      let (token, p2) := qpReadToken p
      if token = "" then Except.error "unexpected end of query"
      else if token.toList.contains ':' then
        let (field, value) := splitColon1 token
        if ("[".toList).isPrefixOf value.toList then
          match qpParseRange pTime pNum field value with
          | Except.ok f => Except.ok (f, p2)
          | Except.error e => Except.error e
        else if ("\"".toList).isPrefixOf value.toList then
          Except.ok (Filter.field field (trimQuotes value) true, p2)
        else if value.toList.contains '*' then
          Except.ok (Filter.wildcard field value, p2)
        else Except.ok (Filter.field field value false, p2)
      else Except.ok (Filter.keyword token, p2)

end

/-- `query.Parse` (`lucene.go` lines 24–40): the empty query and `*`
compile to the tautology; otherwise run the descent (the singleton
`Query.filters` wrapper is the returned filter itself).  Note the trailing
position is not checked against the end of the input. -/
def luceneParse (pTime : String → Option Int) (pNum : String → Rat)
    (queryStr : String) : Except String Filter :=
  if queryStr = "" ∨ queryStr = "*" then Except.ok Filter.all
  else
    match qpParseOr pTime pNum (4 * queryStr.length + 8)
        { input := queryStr.toList, pos := 0 } with
    | Except.error e => Except.error e
    | Except.ok (f, _) => Except.ok f

/-! ## Operation sequences over the store -/

/-- One serialized store operation (each runs its writes in one `db.Update`
transaction; the store's mutex serializes the bulk operations). -/
inductive Op where
  | store (e : LogEntry)
  | deleteAll
  | deleteByLevel (level : String)
  | deleteOlderThan (cutoff : Int)
  | sweepOldest (esz : LogEntry → Nat) (target : Int)
  | sweepOlderThan (cutoff : Int)

/-- Apply one operation. -/
def applyOp (db : DB) : Op → DB
  | .store e => db.store e
  | .deleteAll => (db.deleteAll).1
  | .deleteByLevel l => (db.deleteByLevel l).1
  | .deleteOlderThan c => (db.deleteOlderThan c).1
  | .sweepOldest esz t => DB.deleteOldestEntries esz db t
  | .sweepOlderThan c => (db.deleteOlderThan c).1

/-- Apply a sequence of operations, oldest first. -/
def applyOps (db : DB) : List Op → DB
  | [] => db
  | op :: rest => applyOps (applyOp db op) rest

/-- The entries written by the `store` operations of a sequence. -/
def storedEntries : List Op → List LogEntry
  | [] => []
  | .store e :: rest => e :: storedEntries rest
  | _ :: rest => storedEntries rest

/-- A string without `':'` (every generated record id is 16 lowercase hex
characters, hence colon-free; this is what makes the key encodings
injective). -/
def colonFree (s : String) : Prop := ∀ c ∈ s.toList, c ≠ ':'

instance (s : String) : Decidable (colonFree s) := by
  unfold colonFree
  infer_instance

/-- The store invariant of claim C1: the rendered keys on both sides are
strictly sorted (hence duplicate-free), every primary entry sits under the
key formed from its own timestamp and id, and the multiset of index keys is
exactly the multiset of value-derived twins of the primary entries, each
index value being the record id. -/
structure DB.Inv (db : DB) : Prop where
  sortedP : db.primary.Pairwise (fun a b => pkeyStr a.1 < pkeyStr b.1)
  sortedI : db.index.Pairwise (fun a b => ikeyStr a.1 < ikeyStr b.1)
  wfKeys : ∀ kv ∈ db.primary, kv.1 = (kv.2.timestamp, kv.2.id)
  idsOk : ∀ kv ∈ db.primary, colonFree kv.1.2
  perm : (db.index.map (fun kv => kv.1)).Perm (db.primary.map twinKey)
  idxVal : ∀ kv ∈ db.index, kv.2 = kv.1.2.2

/-- The ids of the primary entries. -/
def dbIds (db : DB) : List String := db.primary.map (fun kv => kv.1.2)

/-- Total `EstimatedSize` of a list of primary entries. -/
def entsSize (esz : LogEntry → Nat) (l : List ((Int × String) × LogEntry)) : Int :=
  (l.map (fun kv => (esz kv.2 : Int))).sum

/-! ## Lemmas and claim theorems -/

/-- The `Query` iteration loop, characterized: wherever it starts, it adds
to the page the filtered entries after the remaining skip budget, up to the
remaining room, and adds every match to `total`. -/
theorem queryLoop_spec (m : LogEntry → Bool) (limit offset : Nat)
    (l : List LogEntry) (entries : List LogEntry) (total skipped : Nat) :
    queryLoop m limit offset l entries total skipped =
      (entries ++ ((l.filter m).drop (offset - skipped)).take (limit - entries.length),
       total + (l.filter m).length) := by
  induction l generalizing entries total skipped with
  | nil => simp [queryLoop]
  | cons e rest ih =>
    by_cases hm : m e
    · by_cases hs : skipped < offset
      · rw [queryLoop]
        simp only [hm, hs, not_true, if_false, if_true, List.filter_cons, if_pos hm]
        rw [ih]
        have h1 : offset - skipped = (offset - (skipped + 1)) + 1 := by omega
        rw [h1]
        simp only [List.drop_succ_cons, List.length_cons]
        rw [Prod.mk.injEq]
        exact ⟨rfl, by omega⟩
      · by_cases hr : entries.length < limit
        · rw [queryLoop]
          simp only [hm, hs, not_true, if_false, if_true, List.filter_cons, if_pos hm]
          rw [ih]
          have h0 : offset - skipped = 0 := by omega
          rw [h0]
          simp only [List.drop_zero, List.length_append, List.length_cons,
            List.length_nil, if_pos hr]
          have h1 : limit - entries.length = (limit - (entries.length + 1)) + 1 := by omega
          rw [h1]
          simp only [List.take_succ_cons, List.append_assoc, List.cons_append,
            List.nil_append, List.length_cons]
          rw [Prod.mk.injEq]
          exact ⟨by simp, by omega⟩
        · rw [queryLoop]
          simp only [hm, hs, hr, not_true, if_false, if_true, List.filter_cons, if_pos hm]
          rw [ih]
          have h0 : offset - skipped = 0 := by omega
          have h1 : limit - entries.length = 0 := by omega
          rw [h0, h1]
          simp only [List.drop_zero, List.take_zero, List.length_cons]
          rw [Prod.mk.injEq]
          exact ⟨rfl, by omega⟩
    · rw [queryLoop]
      simp [hm, List.filter_cons, ih]

/-- The fuel in `decCharsAux` is irrelevant once it exceeds the input. -/
theorem decCharsAux_congr : ∀ (fuel fuel' n : Nat), n < fuel → n < fuel' →
    decCharsAux fuel n = decCharsAux fuel' n := by
  intro fuel
  induction fuel with
  | zero => intro fuel' n h; omega
  | succ f ih =>
    intro fuel' n h h'
    cases fuel' with
    | zero => omega
    | succ f' =>
      rw [decCharsAux, decCharsAux]
      by_cases h10 : n < 10
      · rw [if_pos h10, if_pos h10]
      · rw [if_neg h10, if_neg h10]
        have hdiv : n / 10 < n := Nat.div_lt_self (by omega) (by omega)
        rw [ih f' (n / 10) (by omega) (by omega)]

/-- The recurrence the Go formatting satisfies. -/
theorem decChars_eq (n : Nat) :
    decChars n = if n < 10 then [digitChar n]
      else decChars (n / 10) ++ [digitChar (n % 10)] := by
  show decCharsAux (n + 1) n = _
  rw [decCharsAux]
  by_cases h10 : n < 10
  · rw [if_pos h10, if_pos h10]
  · rw [if_neg h10, if_neg h10]
    have hdiv : n / 10 < n := Nat.div_lt_self (by omega) (by omega)
    rw [decCharsAux_congr n (n / 10 + 1) (n / 10) (by omega) (by omega)]
    rfl

/-- Every character a decimal numeral emits is one of the ten digits. -/
theorem decChars_mem_digit (n : Nat) : ∀ c ∈ decChars n, ∃ d, d < 10 ∧ c = digitChar d := by
  induction n using Nat.strong_induction_on with
  | _ n ih =>
    by_cases h : n < 10
    · rw [decChars_eq, if_pos h]
      intro c hc
      rcases List.mem_singleton.mp hc with rfl
      exact ⟨n, h, rfl⟩
    · rw [decChars_eq, if_neg h]
      intro c hc
      rcases List.mem_append.mp hc with hpre | hlast
      · exact ih (n / 10) (Nat.div_lt_self (by omega) (by omega)) c hpre
      · rcases List.mem_singleton.mp hlast with rfl
        exact ⟨n % 10, Nat.mod_lt n (by omega), rfl⟩

/-- Digits are never a colon. -/
theorem digitChar_ne_colon (d : Nat) : digitChar d ≠ ':' := by
  unfold digitChar
  split <;> decide

/-- Digits are never a minus sign. -/
theorem digitChar_ne_minus (d : Nat) : digitChar d ≠ '-' := by
  unfold digitChar
  split <;> decide

/-- The code point of a digit. -/
theorem digitChar_toNat (d : Nat) (h : d < 10) : (digitChar d).toNat = 48 + d := by
  interval_cases d <;> rfl

/-- A decimal numeral is never empty. -/
theorem decChars_ne_nil (n : Nat) : decChars n ≠ [] := by
  rw [decChars_eq]
  split
  · exact List.cons_ne_nil _ _
  · exact List.append_ne_nil_of_right_ne_nil _ (List.cons_ne_nil _ _)

/-- Reading the numeral back, under any accumulator. -/
theorem decVal_decChars (n : Nat) :
    ∀ acc : Nat, (decChars n).foldl (fun a c => a * 10 + (c.toNat - 48)) acc
      = acc * 10 ^ (decChars n).length + n := by
  induction n using Nat.strong_induction_on with
  | _ n ih =>
    intro acc
    by_cases h : n < 10
    · rw [decChars_eq, if_pos h]
      simp [List.foldl, digitChar_toNat n h]
    · rw [decChars_eq, if_neg h]
      rw [List.foldl_append]
      rw [ih (n / 10) (Nat.div_lt_self (by omega) (by omega)) acc]
      simp only [List.foldl, List.length_append, List.length_singleton]
      rw [digitChar_toNat (n % 10) (Nat.mod_lt n (by omega))]
      have hmod : n % 10 + 48 - 48 = n % 10 := by omega
      have : 48 + n % 10 - 48 = n % 10 := by omega
      rw [this]
      have hdm := Nat.div_add_mod n 10
      rw [pow_succ]
      ring_nf
      omega

/-- The decimal rendering is injective. -/
theorem decChars_inj (a b : Nat) (h : decChars a = decChars b) : a = b := by
  have ha := decVal_decChars a 0
  have hb := decVal_decChars b 0
  rw [h] at ha
  simp at ha hb
  omega

/-- `fmt.Sprintf("%d", _)` on integers is injective. -/
theorem intDecChars_inj (a b : Int) (h : intDecChars a = intDecChars b) : a = b := by
  have hhead : ∀ n : Nat, ∀ hd tl, decChars n = hd :: tl → hd ≠ '-' := by
    intro n hd tl he
    have : hd ∈ decChars n := by rw [he]; exact List.mem_cons_self _ _
    rcases decChars_mem_digit n hd this with ⟨d, _, rfl⟩
    exact digitChar_ne_minus d
  unfold intDecChars at h
  by_cases ha : a < 0 <;> by_cases hb : b < 0
  · rw [if_pos ha, if_pos hb] at h
    have := decChars_inj (-a).toNat (-b).toNat (List.cons_injective h)
    omega
  · rw [if_pos ha, if_neg hb] at h
    rcases he : decChars b.toNat with _ | ⟨hd, tl⟩
    · exact absurd he (decChars_ne_nil _)
    · rw [he] at h
      exact absurd (List.head_eq_of_cons_eq h.symm) (hhead _ _ _ he)
  · rw [if_neg ha, if_pos hb] at h
    rcases he : decChars a.toNat with _ | ⟨hd, tl⟩
    · exact absurd he (decChars_ne_nil _)
    · rw [he] at h
      exact absurd (List.head_eq_of_cons_eq h) (hhead _ _ _ he)
  · rw [if_neg ha, if_neg hb] at h
    have := decChars_inj a.toNat b.toNat h
    omega

/-- The digits of `fmt.Sprintf("%d", _)` never contain a colon. -/
theorem intDecChars_colonFree (n : Int) : ∀ c ∈ intDecChars n, c ≠ ':' := by
  intro c hc
  unfold intDecChars at hc
  split at hc
  · rcases List.mem_cons.mp hc with rfl | hmem
    · decide
    · rcases decChars_mem_digit _ c hmem with ⟨d, _, rfl⟩
      exact digitChar_ne_colon d
  · rcases decChars_mem_digit _ c hc with ⟨d, _, rfl⟩
    exact digitChar_ne_colon d

/-- Splitting at the first colon is unambiguous when the part before it is
colon-free. -/
theorem colon_split_inj (a1 a2 r1 r2 : List Char)
    (h1 : ∀ c ∈ a1, c ≠ ':') (h2 : ∀ c ∈ a2, c ≠ ':')
    (h : a1 ++ ':' :: r1 = a2 ++ ':' :: r2) : a1 = a2 ∧ r1 = r2 := by
  induction a1 generalizing a2 with
  | nil =>
    cases a2 with
    | nil => simpa using h
    | cons x xs =>
      simp only [List.nil_append, List.cons_append, List.cons.injEq] at h
      exact absurd h.1.symm (h2 x (List.mem_cons_self _ _))
  | cons x xs ih =>
    cases a2 with
    | nil =>
      simp only [List.nil_append, List.cons_append, List.cons.injEq] at h
      exact absurd h.1 (h1 x (List.mem_cons_self _ _))
    | cons y ys =>
      simp only [List.cons_append, List.cons.injEq] at h
      obtain ⟨rfl, htl⟩ := h
      have := ih ys (fun c hc => h1 c (List.mem_cons_of_mem _ hc))
        (fun c hc => h2 c (List.mem_cons_of_mem _ hc)) htl
      exact ⟨by rw [this.1], this.2⟩

/-- Rendered primary keys are injective: the timestamp digits are
colon-free, so the split at the first colon after `log:` is unambiguous. -/
theorem pkeyStr_inj (k1 k2 : Int × String)
    (h : pkeyStr k1 = pkeyStr k2) : k1 = k2 := by
  unfold pkeyStr at h
  simp only [List.append_assoc] at h
  have h'' := List.append_cancel_left h
  rcases colon_split_inj (intDecChars k1.1) (intDecChars k2.1) _ _
    (intDecChars_colonFree k1.1) (intDecChars_colonFree k2.1)
    (by simpa using h'') with ⟨hdec, hid⟩
  have ht := intDecChars_inj _ _ hdec
  have hi : k1.2 = k2.2 := by
    apply String.ext
    simpa using hid
  exact Prod.ext ht hi

/-- Rendered index keys are injective on colon-free record ids (the level
part may contain colons: the decomposition is taken from the right). -/
theorem ikeyStr_inj (k1 k2 : String × Int × String)
    (h1 : colonFree k1.2.2) (h2 : colonFree k2.2.2)
    (h : ikeyStr k1 = ikeyStr k2) : k1 = k2 := by
  unfold ikeyStr at h
  have h' := congrArg List.reverse h
  simp only [List.reverse_append, List.reverse_cons, List.append_assoc,
    List.nil_append] at h'
  rcases colon_split_inj k1.2.2.data.reverse k2.2.2.data.reverse _ _
    (by intro c hc; exact h1 c (by simpa using List.mem_reverse.mp hc))
    (by intro c hc; exact h2 c (by simpa using List.mem_reverse.mp hc))
    (by simpa using h') with ⟨hid, hrest⟩
  rcases colon_split_inj (intDecChars k1.2.1).reverse (intDecChars k2.2.1).reverse _ _
    (by intro c hc; exact intDecChars_colonFree k1.2.1 c (List.mem_reverse.mp hc))
    (by intro c hc; exact intDecChars_colonFree k2.2.1 c (List.mem_reverse.mp hc))
    hrest with ⟨hdec, hlvl⟩
  have hts := intDecChars_inj _ _ (List.reverse_injective hdec)
  have hid' : k1.2.2 = k2.2.2 := by
    apply String.ext
    exact List.reverse_injective hid
  have hlvl' : k1.1 = k2.1 := by
    apply String.ext
    have := List.append_cancel_right hlvl
    exact List.reverse_injective this
  exact Prod.ext hlvl' (Prod.ext hts hid')

/-- Membership after a sorted insert. -/
theorem mem_insSorted {κ ν : Type} (key : κ → List Char) (k : κ) (v : ν)
    (l : List (κ × ν)) (a : κ × ν) (h : a ∈ insSorted key k v l) :
    a = (k, v) ∨ a ∈ l := by
  induction l with
  | nil => simpa [insSorted] using h
  | cons kv rest ih =>
    rcases kv with ⟨k2, v2⟩
    unfold insSorted at h
    split at h
    · rcases List.mem_cons.mp h with rfl | hm
      · exact Or.inl rfl
      · exact Or.inr hm
    · split at h
      · rcases List.mem_cons.mp h with rfl | hm
        · exact Or.inl rfl
        · exact Or.inr (List.mem_cons_of_mem _ hm)
      · rcases List.mem_cons.mp h with rfl | hm
        · exact Or.inr (List.mem_cons_self _ _)
        · rcases ih hm with h' | h'
          · exact Or.inl h'
          · exact Or.inr (List.mem_cons_of_mem _ h')

/-- Inserting a key absent from the list is, as a multiset, a cons. -/
theorem insSorted_perm_of_fresh {κ ν : Type} (key : κ → List Char) (k : κ) (v : ν)
    (l : List (κ × ν)) (h : ∀ kv ∈ l, key kv.1 ≠ key k) :
    (insSorted key k v l).Perm ((k, v) :: l) := by
  induction l with
  | nil => simp [insSorted]
  | cons kv rest ih =>
    rcases kv with ⟨k2, v2⟩
    unfold insSorted
    split
    · exact List.Perm.refl _
    · split
      · rename_i hne heq
        exact absurd heq.symm (h (k2, v2) (List.mem_cons_self _ _))
      · have h1 := ih (fun kv hm => h kv (List.mem_cons_of_mem _ hm))
        exact (h1.cons (k2, v2)).trans (List.Perm.swap (k, v) (k2, v2) rest)

/-- A sorted insert keeps the keyspace strictly sorted. -/
theorem insSorted_pairwise {κ ν : Type} (key : κ → List Char) (k : κ) (v : ν)
    (l : List (κ × ν)) (h : l.Pairwise (fun a b => key a.1 < key b.1)) :
    (insSorted key k v l).Pairwise (fun a b => key a.1 < key b.1) := by
  induction l with
  | nil => simp [insSorted]
  | cons kv rest ih =>
    rcases kv with ⟨k2, v2⟩
    rcases List.pairwise_cons.mp h with ⟨hhead, htail⟩
    unfold insSorted
    split
    · rename_i hlt
      refine List.pairwise_cons.mpr ⟨?_, h⟩
      intro b hb
      rcases List.mem_cons.mp hb with rfl | hm
      · exact hlt
      · exact lt_trans hlt (hhead b hm)
    · split
      · rename_i hnlt heq
        refine List.pairwise_cons.mpr ⟨?_, htail⟩
        intro b hb
        calc key (k, v).1 = key k2 := heq
          _ < key b.1 := hhead b hb
      · rename_i hnlt hne
        have hgt : key k2 < key k := by
          rcases lt_trichotomy (key k) (key k2) with h1 | h1 | h1
          · exact absurd h1 hnlt
          · exact absurd h1 hne
          · exact h1
        refine List.pairwise_cons.mpr ⟨?_, ih htail⟩
        intro b hb
        rcases mem_insSorted key k v rest b hb with rfl | hm
        · exact hgt
        · exact hhead b hm

/-- Deleting a keyspace's own key list empties it. -/
theorem delKeys_self {κ ν : Type} (key : κ → List Char) (l : List (κ × ν)) :
    delKeys key (l.map (fun kv => key kv.1)) l = [] := by
  rw [delKeys, List.filter_eq_nil]
  intro kv hm
  simpa using List.mem_map_of_mem (fun kv => key kv.1) hm

/-- `Store` preserves the C1 invariant when the new record's id is fresh
and colon-free. -/
theorem DB.store_inv (db : DB) (e : LogEntry) (hInv : db.Inv)
    (hfresh : ∀ kv ∈ db.primary, kv.1.2 ≠ e.id) (hcf : colonFree e.id) :
    (db.store e).Inv := by
  have hcfP : ∀ kv ∈ db.primary, colonFree kv.2.id := by
    intro kv hm
    have hw := hInv.wfKeys kv hm
    have := hInv.idsOk kv hm
    rw [hw] at this
    exact this
  have hfreshP : ∀ kv ∈ db.primary, pkeyStr kv.1 ≠ pkeyStr (e.timestamp, e.id) := by
    intro kv hm heq
    have := pkeyStr_inj _ _ heq
    exact hfresh kv hm (congrArg Prod.snd this)
  have hfreshI : ∀ iv ∈ db.index, ikeyStr iv.1 ≠ ikeyStr (e.level, e.timestamp, e.id) := by
    intro iv hm heq
    have hmk : iv.1 ∈ db.index.map (fun kv => kv.1) := List.mem_map_of_mem _ hm
    have hmk2 : iv.1 ∈ db.primary.map twinKey := (hInv.perm.mem_iff).mp hmk
    rcases List.mem_map.mp hmk2 with ⟨kv, hkv, htw⟩
    rw [← htw] at heq
    have := ikeyStr_inj _ _ (hcfP kv hkv) hcf heq
    have hid : kv.2.id = e.id := congrArg (fun t => t.2.2) this
    have hw := hInv.wfKeys kv hkv
    exact hfresh kv hkv (by rw [hw]; exact hid)
  refine ⟨?_, ?_, ?_, ?_, ?_, ?_⟩
  · exact insSorted_pairwise pkeyStr _ e db.primary hInv.sortedP
  · exact insSorted_pairwise ikeyStr _ e.id db.index hInv.sortedI
  · intro kv hm
    rcases mem_insSorted pkeyStr (e.timestamp, e.id) e db.primary kv hm with rfl | hm'
    · rfl
    · exact hInv.wfKeys kv hm'
  · intro kv hm
    rcases mem_insSorted pkeyStr (e.timestamp, e.id) e db.primary kv hm with rfl | hm'
    · exact hcf
    · exact hInv.idsOk kv hm'
  · have hp1 : (insSorted ikeyStr (e.level, e.timestamp, e.id) e.id db.index).Perm
        (((e.level, e.timestamp, e.id), e.id) :: db.index) :=
      insSorted_perm_of_fresh _ _ _ _ (fun kv hm => hfreshI kv hm)
    have hp2 : (insSorted pkeyStr (e.timestamp, e.id) e db.primary).Perm
        (((e.timestamp, e.id), e) :: db.primary) :=
      insSorted_perm_of_fresh _ _ _ _ (fun kv hm => hfreshP kv hm)
    show ((insSorted ikeyStr (e.level, e.timestamp, e.id) e.id db.index).map
        (fun kv => kv.1)).Perm
      ((insSorted pkeyStr (e.timestamp, e.id) e db.primary).map twinKey)
    refine (hp1.map (fun kv => kv.1)).trans ?_
    refine List.Perm.trans ?_ ((hp2.map twinKey).symm)
    exact hInv.perm.cons (e.level, e.timestamp, e.id)
  · intro kv hm
    rcases mem_insSorted ikeyStr (e.level, e.timestamp, e.id) e.id db.index kv hm
      with rfl | hm'
    · rfl
    · exact hInv.idxVal kv hm'

/-- Every bulk delete preserves the C1 invariant: removing a selection of
primary entries together with exactly their value-derived index twins keeps
the two sides in bijection. -/
theorem DB.bulkDelete_inv (db : DB) (sel : List ((Int × String) × LogEntry))
    (hInv : db.Inv) (hsub : sel.Sublist db.primary) :
    (db.bulkDelete sel).Inv := by
  have hndP : (db.primary.map (fun kv => pkeyStr kv.1)).Nodup := by
    have := List.pairwise_map.mpr hInv.sortedP
    exact this.imp (fun hab => ne_of_lt hab)
  have hcfP : ∀ kv ∈ db.primary, colonFree kv.2.id := by
    intro kv hm
    have hw := hInv.wfKeys kv hm
    have := hInv.idsOk kv hm
    rw [hw] at this
    exact this
  have hpoint : ∀ kv ∈ db.primary,
      (ikeyStr (twinKey kv) ∈ sel.map (fun s => ikeyStr (twinKey s))
        ↔ pkeyStr kv.1 ∈ sel.map (fun s => pkeyStr s.1)) := by
    intro kv hm
    constructor
    · intro hik
      rcases List.mem_map.mp hik with ⟨s, hs, heq⟩
      have hsP := hsub.subset hs
      have := ikeyStr_inj _ _ (hcfP s hsP) (hcfP kv hm) heq
      have hts : s.2.timestamp = kv.2.timestamp := congrArg (fun t => t.2.1) this
      have hid : s.2.id = kv.2.id := congrArg (fun t => t.2.2) this
      have hkeq : s.1 = kv.1 := by
        rw [hInv.wfKeys s hsP, hInv.wfKeys kv hm, hts, hid]
      exact List.mem_map.mpr ⟨s, hs, by rw [hkeq]⟩
    · intro hpk
      rcases List.mem_map.mp hpk with ⟨s, hs, heq⟩
      have hsP := hsub.subset hs
      have hkeq : s = kv :=
        List.inj_on_of_nodup_map hndP hsP hm heq
      exact List.mem_map.mpr ⟨s, hs, by rw [hkeq]⟩
  refine ⟨?_, ?_, ?_, ?_, ?_, ?_⟩
  · exact List.Pairwise.sublist (List.filter_sublist _) hInv.sortedP
  · exact List.Pairwise.sublist (List.filter_sublist _) hInv.sortedI
  · intro kv hm
    exact hInv.wfKeys kv (List.mem_of_mem_filter hm)
  · intro kv hm
    exact hInv.idsOk kv (List.mem_of_mem_filter hm)
  · show ((delKeys ikeyStr (sel.map (fun kv => ikeyStr (twinKey kv))) db.index).map
        (fun kv => kv.1)).Perm _
    unfold delKeys
    have hcomm1 : (db.index.filter
          (fun kv => ¬ ikeyStr kv.1 ∈ sel.map (fun s => ikeyStr (twinKey s)))).map
          (fun kv => kv.1)
        = (db.index.map (fun kv => kv.1)).filter
          (fun k => ¬ ikeyStr k ∈ sel.map (fun s => ikeyStr (twinKey s))) := by
      rw [List.map_filter]
      rfl
    rw [hcomm1]
    have hstep := hInv.perm.filter
      (fun k => ¬ ikeyStr k ∈ sel.map (fun s => ikeyStr (twinKey s)))
    refine hstep.trans ?_
    have hcomm2 : (db.primary.map twinKey).filter
          (fun k => ¬ ikeyStr k ∈ sel.map (fun s => ikeyStr (twinKey s)))
        = (db.primary.filter
            (fun kv => ¬ ikeyStr (twinKey kv) ∈ sel.map (fun s => ikeyStr (twinKey s)))).map
          twinKey := by
      rw [List.map_filter]
      rfl
    rw [hcomm2]
    have hfc : db.primary.filter
          (fun kv => ¬ ikeyStr (twinKey kv) ∈ sel.map (fun s => ikeyStr (twinKey s)))
        = db.primary.filter
          (fun kv => ¬ pkeyStr kv.1 ∈ sel.map (fun s => pkeyStr s.1)) := by
      apply List.filter_congr
      intro kv hm
      have := hpoint kv hm
      simp only [decide_not]
      rw [decide_eq_decide.mpr this]
    rw [hfc]
    exact List.Perm.refl _
  · intro kv hm
    exact hInv.idxVal kv (List.mem_of_mem_filter hm)

/-- The retention collection loop takes a prefix of the scan. -/
theorem collectOldest_eq_take (esz : LogEntry → Nat) (target : Int)
    (l : List ((Int × String) × LogEntry)) (acc : Int) :
    collectOldest esz target l acc
      = l.take (collectOldest esz target l acc).length := by
  induction l generalizing acc with
  | nil => rfl
  | cons kv rest ih =>
    rw [collectOldest]
    split
    · simp
    · simp only [List.length_cons, List.take_succ_cons, List.cons.injEq, true_and]
      exact ih (acc + esz kv.2)

/-- The empty store satisfies the invariant. -/
theorem DB.empty_inv : DB.empty.Inv := by
  refine ⟨?_, ?_, ?_, ?_, ?_, ?_⟩ <;> simp [DB.empty]

/-- The entries of `op :: rest` are those of `rest`, plus the stored one. -/
theorem storedEntries_cons (op : Op) (rest : List Op) :
    storedEntries (op :: rest) = storedEntries rest ∨
      ∃ e, op = Op.store e ∧ storedEntries (op :: rest) = e :: storedEntries rest := by
  cases op with
  | store e => exact Or.inr ⟨e, rfl, rfl⟩
  | deleteAll => exact Or.inl rfl
  | deleteByLevel l => exact Or.inl rfl
  | deleteOlderThan c => exact Or.inl rfl
  | sweepOldest esz t => exact Or.inl rfl
  | sweepOlderThan c => exact Or.inl rfl

/-- Every single operation preserves the C1 invariant (stores need a fresh,
colon-free id). -/
theorem applyOp_inv (db : DB) (op : Op) (hInv : db.Inv)
    (hfresh : ∀ e, op = Op.store e → ∀ kv ∈ db.primary, kv.1.2 ≠ e.id)
    (hcf : ∀ e, op = Op.store e → colonFree e.id) :
    (applyOp db op).Inv := by
  cases op with
  | store e => exact db.store_inv e hInv (hfresh e rfl) (hcf e rfl)
  | deleteAll =>
    have heq : (db.deleteAll).1 = DB.empty := by
      show DB.mk _ _ = _
      rw [delKeys_self pkeyStr db.primary, delKeys_self ikeyStr db.index]
      rfl
    show (db.deleteAll).1.Inv
    rw [heq]
    exact DB.empty_inv
  | deleteByLevel l => exact db.bulkDelete_inv _ hInv (List.filter_sublist _)
  | deleteOlderThan c => exact db.bulkDelete_inv _ hInv (List.filter_sublist _)
  | sweepOldest esz t =>
    refine db.bulkDelete_inv _ hInv ?_
    rw [collectOldest_eq_take]
    exact List.take_sublist _ _
  | sweepOlderThan c => exact db.bulkDelete_inv _ hInv (List.filter_sublist _)

/-- An id present after an operation was present before, unless the
operation stored it. -/
theorem dbIds_applyOp (db : DB) (op : Op) (s : String)
    (hs : s ∈ dbIds (applyOp db op)) :
    s ∈ dbIds db ∨ ∃ e, op = Op.store e ∧ s = e.id := by
  cases op with
  | store e =>
    rcases List.mem_map.mp hs with ⟨kv, hkv, rfl⟩
    rcases mem_insSorted pkeyStr (e.timestamp, e.id) e db.primary kv hkv with rfl | hm
    · exact Or.inr ⟨e, rfl, rfl⟩
    · exact Or.inl (List.mem_map_of_mem _ hm)
  | deleteAll =>
    rcases List.mem_map.mp hs with ⟨kv, hkv, rfl⟩
    exact Or.inl (List.mem_map_of_mem _ (List.mem_of_mem_filter hkv))
  | deleteByLevel l =>
    rcases List.mem_map.mp hs with ⟨kv, hkv, rfl⟩
    exact Or.inl (List.mem_map_of_mem _ (List.mem_of_mem_filter hkv))
  | deleteOlderThan c =>
    rcases List.mem_map.mp hs with ⟨kv, hkv, rfl⟩
    exact Or.inl (List.mem_map_of_mem _ (List.mem_of_mem_filter hkv))
  | sweepOldest esz t =>
    rcases List.mem_map.mp hs with ⟨kv, hkv, rfl⟩
    exact Or.inl (List.mem_map_of_mem _ (List.mem_of_mem_filter hkv))
  | sweepOlderThan c =>
    rcases List.mem_map.mp hs with ⟨kv, hkv, rfl⟩
    exact Or.inl (List.mem_map_of_mem _ (List.mem_of_mem_filter hkv))

/-- The C1 invariant holds after every prefix of an operation sequence,
provided the stored ids are pairwise distinct and colon-free and none of
them is already in the store. -/
theorem applyOps_take_inv (ops : List Op) (db : DB) (hInv : db.Inv)
    (hdisj : ∀ s ∈ dbIds db, ¬ s ∈ (storedEntries ops).map (fun e => e.id))
    (hnd : ((storedEntries ops).map (fun e => e.id)).Nodup)
    (hcf : ∀ e ∈ storedEntries ops, colonFree e.id) :
    ∀ k, (applyOps db (ops.take k)).Inv := by
  induction ops generalizing db with
  | nil =>
    intro k
    simpa [applyOps] using hInv
  | cons op rest ih =>
    intro k
    cases k with
    | zero => simpa [applyOps] using hInv
    | succ k =>
      rw [List.take_succ_cons]
      show (applyOps (applyOp db op) (rest.take k)).Inv
      refine ih (applyOp db op) ?_ ?_ ?_ ?_ k
      · refine applyOp_inv db op hInv ?_ ?_
        · intro e heq kv hkv hid
          subst heq
          have h1 := hdisj kv.1.2 (List.mem_map_of_mem _ hkv)
          apply h1
          show kv.1.2 ∈ (e :: storedEntries rest).map (fun e => e.id)
          rw [hid]
          exact List.mem_map_of_mem _ (List.mem_cons_self _ _)
        · intro e heq
          subst heq
          exact hcf e (List.mem_cons_self _ _)
      · intro s hs
        rcases dbIds_applyOp db op s hs with hold | ⟨e, heq, rfl⟩
        · have h1 := hdisj s hold
          intro h2
          apply h1
          rcases storedEntries_cons op rest with hsc | ⟨e, _, hsc⟩
          · rw [hsc]; exact h2
          · rw [hsc]
            rcases List.mem_map.mp h2 with ⟨x, hx, rfl⟩
            exact List.mem_map_of_mem _ (List.mem_cons_of_mem _ hx)
        · subst heq
          have : storedEntries (Op.store e :: rest) = e :: storedEntries rest := rfl
          rw [this] at hnd
          simp only [List.map_cons, List.nodup_cons] at hnd
          exact hnd.1
      · rcases storedEntries_cons op rest with hsc | ⟨e, _, hsc⟩
        · rw [hsc] at hnd; exact hnd
        · rw [hsc] at hnd
          simp only [List.map_cons, List.nodup_cons] at hnd
          exact hnd.2
      · intro e he
        rcases storedEntries_cons op rest with hsc | ⟨x, _, hsc⟩
        · rw [hsc] at hcf; exact hcf e he
        · rw [hsc] at hcf
          exact hcf e (List.mem_cons_of_mem _ he)

/-- C1.  After every prefix of a sequence of `Store` writes and delete
operations (`DeleteAll`, `DeleteByLevel`, `DeleteOlderThan`, size- and
time-retention sweeps), each applying its primary and index mutations in
one `db.Update` transaction (= one transition of the model), the multiset of
by-level index keys equals exactly the multiset of `(level, timestamp, id)`
twins of the primary entries, both keyspaces are duplicate-free, and every
primary key carries its own record's `(timestamp, id)` — i.e. primary
entries and index entries are in the claimed one-to-one correspondence.
The record ids written by the sequence are assumed pairwise distinct (spec:
random 64-bit, unique within a process lifetime) and colon-free (spec: 16
lowercase hex characters). -/
theorem c1_primary_index_twins (ops : List Op)
    (hnd : ((storedEntries ops).map (fun e => e.id)).Nodup)
    (hcf : ∀ e ∈ storedEntries ops, colonFree e.id) (k : Nat) :
    ((applyOps DB.empty (ops.take k)).index.map (fun kv => kv.1)).Perm
        ((applyOps DB.empty (ops.take k)).primary.map twinKey)
    ∧ ((applyOps DB.empty (ops.take k)).index.map (fun kv => ikeyStr kv.1)).Nodup
    ∧ ((applyOps DB.empty (ops.take k)).primary.map (fun kv => pkeyStr kv.1)).Nodup
    ∧ ∀ kv ∈ (applyOps DB.empty (ops.take k)).primary,
        kv.1 = (kv.2.timestamp, kv.2.id) := by
  have h := applyOps_take_inv ops DB.empty DB.empty_inv
    (by simp [dbIds, DB.empty]) hnd hcf k
  refine ⟨h.perm, ?_, ?_, h.wfKeys⟩
  · exact (List.pairwise_map.mpr h.sortedI).imp (fun hab => ne_of_lt hab)
  · exact (List.pairwise_map.mpr h.sortedP).imp (fun hab => ne_of_lt hab)

/-- C1 witness: `c1_primary_index_twins` on the concrete sequence
store–store–DeleteByLevel, checked after its full prefix. -/
theorem c1_primary_index_twins_witness :
    ((applyOps DB.empty
        ([Op.store { id := "aaaaaaaaaaaaaaaa", timestamp := 1700000000000000001,
                     level := "ERROR", message := "m1", fields := [], raw := "r1" },
          Op.store { id := "bbbbbbbbbbbbbbbb", timestamp := 1700000000000000002,
                     level := "INFO", message := "m2", fields := [], raw := "r2" },
          Op.deleteByLevel "ERROR"].take 3)).index.map (fun kv => kv.1)).Perm
      ((applyOps DB.empty
        ([Op.store { id := "aaaaaaaaaaaaaaaa", timestamp := 1700000000000000001,
                     level := "ERROR", message := "m1", fields := [], raw := "r1" },
          Op.store { id := "bbbbbbbbbbbbbbbb", timestamp := 1700000000000000002,
                     level := "INFO", message := "m2", fields := [], raw := "r2" },
          Op.deleteByLevel "ERROR"].take 3)).primary.map twinKey) :=
  (c1_primary_index_twins
    [Op.store { id := "aaaaaaaaaaaaaaaa", timestamp := 1700000000000000001,
                level := "ERROR", message := "m1", fields := [], raw := "r1" },
     Op.store { id := "bbbbbbbbbbbbbbbb", timestamp := 1700000000000000002,
                level := "INFO", message := "m2", fields := [], raw := "r2" },
     Op.deleteByLevel "ERROR"]
    (by decide)
    (by decide) 3).1

/-- The collection loop touches the whole scan or reaches the target. -/
theorem collectOldest_reach (esz : LogEntry → Nat) (t : Int)
    (l : List ((Int × String) × LogEntry)) :
    ∀ acc : Int, (collectOldest esz t l acc).length = l.length
      ∨ t ≤ acc + entsSize esz (collectOldest esz t l acc) := by
  induction l with
  | nil => intro acc; exact Or.inl rfl
  | cons kv rest ih =>
    intro acc
    rw [collectOldest]
    split
    · rename_i h
      right
      simp only [entsSize, List.map_cons, List.map_nil, List.sum_cons, List.sum_nil]
      omega
    · rename_i h
      rcases ih (acc + esz kv.2) with h1 | h1
      · left
        simp [h1]
      · right
        simp only [entsSize, List.map_cons, List.sum_cons] at h1 ⊢
        omega

/-- Minimality of the collected prefix: the loop only continued past the
`j`-th entry because the accumulated size was still below the target. -/
theorem collectOldest_min (esz : LogEntry → Nat) (t : Int)
    (l : List ((Int × String) × LogEntry)) :
    ∀ (acc : Int) (j : Nat), 1 ≤ j → j < (collectOldest esz t l acc).length →
      acc + entsSize esz (l.take j) < t := by
  induction l with
  | nil =>
    intro acc j h1 h2
    simp [collectOldest] at h2
  | cons kv rest ih =>
    intro acc j h1 h2
    rw [collectOldest] at h2
    split at h2
    · simp at h2
      omega
    · rename_i h
      rcases Nat.lt_or_ge j 2 with hj | hj
      · have : j = 1 := by omega
        subst this
        simp only [List.take_succ_cons, List.take_zero, entsSize, List.map_cons,
          List.map_nil, List.sum_cons, List.sum_nil]
        omega
      · simp only [List.length_cons] at h2
        have hrec := ih (acc + esz kv.2) (j - 1) (by omega) (by omega)
        have hj1 : j = (j - 1) + 1 := by omega
        rw [hj1, List.take_succ_cons]
        simp only [entsSize, List.map_cons, List.sum_cons] at hrec ⊢
        omega

/-- Deleting the collected keys of a prefix removes exactly that prefix
from the sorted keyspace. -/
theorem bulkDelete_take_primary (db : DB) (n : Nat) (hInv : db.Inv) :
    (db.bulkDelete (db.primary.take n)).primary = db.primary.drop n := by
  have hnd : (db.primary.map (fun kv => pkeyStr kv.1)).Nodup :=
    (List.pairwise_map.mpr hInv.sortedP).imp (fun hab => ne_of_lt hab)
  show delKeys pkeyStr ((db.primary.take n).map (fun kv => pkeyStr kv.1)) db.primary
      = db.primary.drop n
  unfold delKeys
  have hdisj : ((db.primary.take n).map (fun kv => pkeyStr kv.1)).Disjoint
      ((db.primary.drop n).map (fun kv => pkeyStr kv.1)) := by
    apply List.disjoint_of_nodup_append
    rw [← List.map_append, List.take_append_drop]
    exact hnd
  generalize hks : (db.primary.take n).map (fun kv => pkeyStr kv.1) = ks
  conv_lhs => rw [← List.take_append_drop n db.primary]
  rw [List.filter_append]
  have h1 : (db.primary.take n).filter (fun kv => ¬ pkeyStr kv.1 ∈ ks) = [] := by
    rw [List.filter_eq_nil]
    intro kv hm
    have : pkeyStr kv.1 ∈ ks := by
      rw [← hks]
      exact List.mem_map_of_mem (fun kv => pkeyStr kv.1) hm
    simpa using this
  have h2 : (db.primary.drop n).filter (fun kv => ¬ pkeyStr kv.1 ∈ ks) = db.primary.drop n := by
    rw [List.filter_eq_self]
    intro kv hm
    have hmem : pkeyStr kv.1 ∈ (db.primary.drop n).map (fun kv => pkeyStr kv.1) :=
      List.mem_map_of_mem _ hm
    have hnot : ¬ pkeyStr kv.1 ∈ ks := by
      rw [← hks]
      intro hc
      exact (List.disjoint_right.mp hdisj hmem) hc
    simpa using hnot
  rw [h1, h2, List.nil_append]

/-- C4 (amended).  When size-based retention is active and the on-disk size
exceeds the budget, the sweep deletes the shortest key-order prefix of the
primary entries whose cumulative estimated size reaches
`⌊1.2·(currentSize − budget)⌋` (deleting the whole store if it never does),
together with exactly those entries' index twins (the invariant is
preserved) — it does **not** continue until the remaining size is 20% below
the budget. -/
theorem c4_size_sweep (esz : LogEntry → Nat)
    (retentionSize retentionDays currentSize timeCutoff : Int) (db : DB)
    (hInv : db.Inv) (hsz : 0 < retentionSize) (hover : retentionSize < currentSize) :
    (DB.enforceRetention esz retentionSize retentionDays currentSize timeCutoff db).primary
        = db.primary.drop
            (collectOldest esz ((currentSize - retentionSize) * 12 / 10) db.primary 0).length
    ∧ (DB.enforceRetention esz retentionSize retentionDays currentSize timeCutoff db).Inv
    ∧ ((collectOldest esz ((currentSize - retentionSize) * 12 / 10) db.primary 0).length
          = db.primary.length
        ∨ (currentSize - retentionSize) * 12 / 10
            ≤ entsSize esz
              (collectOldest esz ((currentSize - retentionSize) * 12 / 10) db.primary 0))
    ∧ ∀ j, 1 ≤ j →
        j < (collectOldest esz ((currentSize - retentionSize) * 12 / 10) db.primary 0).length →
        entsSize esz (db.primary.take j) < (currentSize - retentionSize) * 12 / 10 := by
  have hbr : DB.enforceRetention esz retentionSize retentionDays currentSize timeCutoff db
      = DB.deleteOldestEntries esz db ((currentSize - retentionSize) * 12 / 10) := by
    unfold DB.enforceRetention
    rw [if_pos ⟨hsz, hover⟩]
  rw [hbr]
  have hsel := collectOldest_eq_take esz ((currentSize - retentionSize) * 12 / 10)
    db.primary 0
  refine ⟨?_, ?_, ?_, ?_⟩
  · show (db.bulkDelete
        (collectOldest esz ((currentSize - retentionSize) * 12 / 10) db.primary 0)).primary = _
    conv_lhs => rw [hsel]
    exact bulkDelete_take_primary db _ hInv
  · refine db.bulkDelete_inv _ hInv ?_
    rw [hsel]
    exact List.take_sublist _ _
  · have := collectOldest_reach esz ((currentSize - retentionSize) * 12 / 10) db.primary 0
    rcases this with h | h
    · exact Or.inl h
    · refine Or.inr ?_
      omega
  · intro j hj1 hj2
    have := collectOldest_min esz ((currentSize - retentionSize) * 12 / 10) db.primary 0
      j hj1 hj2
    omega

/-- C4 witness: `c4_size_sweep` on a two-record store, 100 estimated bytes
each, budget 100, current size 200: the target is 240 and both records are
swept. -/
theorem c4_size_sweep_witness :
    (DB.enforceRetention (fun _ => 100) 100 0 200 0
        (applyOps DB.empty
          [Op.store { id := "aaaaaaaaaaaaaaaa", timestamp := 11,
                      level := "INFO", message := "m1", fields := [], raw := "r1" },
           Op.store { id := "bbbbbbbbbbbbbbbb", timestamp := 12,
                      level := "INFO", message := "m2", fields := [], raw := "r2" }])).primary
      = (applyOps DB.empty
          [Op.store { id := "aaaaaaaaaaaaaaaa", timestamp := 11,
                      level := "INFO", message := "m1", fields := [], raw := "r1" },
           Op.store { id := "bbbbbbbbbbbbbbbb", timestamp := 12,
                      level := "INFO", message := "m2", fields := [], raw := "r2" }]).primary.drop
        (collectOldest (fun _ => 100) ((200 - 100) * 12 / 10)
          (applyOps DB.empty
            [Op.store { id := "aaaaaaaaaaaaaaaa", timestamp := 11,
                        level := "INFO", message := "m1", fields := [], raw := "r1" },
             Op.store { id := "bbbbbbbbbbbbbbbb", timestamp := 12,
                        level := "INFO", message := "m2", fields := [], raw := "r2" }]).primary
          0).length := by
  have hInv := applyOps_take_inv
    [Op.store { id := "aaaaaaaaaaaaaaaa", timestamp := 11,
                level := "INFO", message := "m1", fields := [], raw := "r1" },
     Op.store { id := "bbbbbbbbbbbbbbbb", timestamp := 12,
                level := "INFO", message := "m2", fields := [], raw := "r2" }]
    DB.empty DB.empty_inv (by simp [dbIds, DB.empty]) (by decide) (by decide) 2
  exact (c4_size_sweep (fun _ => 100) 100 0 200 0 _ (by simpa using hInv)
    (by decide) (by decide)).1

/-- C4 counterexample: twelve records of 100 estimated bytes (1200 total),
budget 1000.  The sweep deletes `⌊1.2·200⌋ = 240` bytes worth — the three
oldest records — leaving 900 bytes, which is *not* 20% below the budget
(800). -/
theorem c4_counterexample :
    ((DB.enforceRetention (fun _ => 100) 1000 0 1200 0
        (applyOps DB.empty ((List.range 12).map (fun i =>
          Op.store { id := String.mk (decChars (100 + i)),
                     timestamp := (11 + i : Int), level := "INFO",
                     message := "m", fields := [], raw := "r" })))).primary.length = 9)
    ∧ ¬ ((9 * 100 : Int) ≤ 1000 - 1000 / 5) := by
  constructor
  · decide
  · decide

/-- Digits compare like their values. -/
theorem digitChar_lt (d1 d2 : Nat) (h : d1 < d2) (h2 : d2 < 10) :
    digitChar d1 < digitChar d2 := by
  rw [Char.lt_def]
  have t1 := digitChar_toNat d1 (by omega)
  have t2 := digitChar_toNat d2 h2
  show (digitChar d1).toNat < (digitChar d2).toNat
  omega

/-- Lexicographic order is preserved by a common prefix. -/
theorem lex_append_left {r : Char → Char → Prop} (p : List Char)
    {xs ys : List Char} (h : List.Lex r xs ys) :
    List.Lex r (p ++ xs) (p ++ ys) := by
  induction p with
  | nil => exact h
  | cons c cs ih => exact List.Lex.cons ih

/-- A lexicographic difference between equal-length lists decides the
comparison whatever follows. -/
theorem lex_append_of_length_eq {r : Char → Char → Prop} :
    ∀ {xs ys : List Char}, List.Lex r xs ys → xs.length = ys.length →
      ∀ (as bs : List Char), List.Lex r (xs ++ as) (ys ++ bs) := by
  intro xs ys h
  induction h with
  | nil => intro hlen; simp at hlen
  | @rel a l1 b l2 hr =>
    intro hlen as bs
    exact List.Lex.rel hr
  | @cons a l1 l2 hlex ih =>
    intro hlen as bs
    simp only [List.length_cons, Nat.succ.injEq] at hlen
    exact List.Lex.cons (ih hlen as bs)

/-- Strictly larger naturals with the same digit count have lexicographically
larger numerals. -/
theorem decChars_lex (b : Nat) : ∀ a : Nat, a < b →
    (decChars a).length = (decChars b).length →
    List.Lex (· < ·) (decChars a) (decChars b) := by
  induction b using Nat.strong_induction_on with
  | _ b ih =>
    intro a hab hlen
    by_cases hb : b < 10
    · have ha : a < 10 := by omega
      rw [decChars_eq, if_pos ha]
      rw [decChars_eq, if_pos hb]
      exact List.Lex.rel (digitChar_lt a b hab hb)
    · by_cases ha : a < 10
      · exfalso
        rw [decChars_eq, if_pos ha, decChars_eq, if_neg hb] at hlen
        have h1 : 1 ≤ (decChars (b / 10)).length := by
          rcases he : decChars (b / 10) with _ | ⟨c, cs⟩
          · exact absurd he (decChars_ne_nil _)
          · simp
        simp only [List.length_singleton, List.length_append] at hlen
        omega
      · rw [decChars_eq a, if_neg ha] at hlen ⊢
        rw [decChars_eq b, if_neg hb] at hlen ⊢
        simp only [List.length_append, List.length_singleton] at hlen
        have hd : a / 10 ≤ b / 10 := Nat.div_le_div_right (by omega)
        rcases Nat.lt_or_ge (a / 10) (b / 10) with hdd | hdd
        · have hlex := ih (b / 10) (Nat.div_lt_self (by omega) (by omega)) (a / 10)
            hdd (by omega)
          exact lex_append_of_length_eq hlex (by omega) _ _
        · have heqd : a / 10 = b / 10 := by omega
          have hmod : a % 10 < b % 10 := by
            have h1 := Nat.div_add_mod a 10
            have h2 := Nat.div_add_mod b 10
            omega
          rw [heqd]
          apply lex_append_left
          exact List.Lex.rel (digitChar_lt (a % 10) (b % 10) hmod (Nat.mod_lt b (by omega)))

/-- C2 (amended), part one: for non-negative timestamps whose decimal
numerals have the same digit count (true of every pair of real
`UnixNano` values after 2001-09-09, which are all 19 digits), the smaller
timestamp gives the lexicographically (byte-order) smaller primary key,
whatever the record ids are; part two: consequently, on every store state
satisfying the C1 invariant whose timestamps are non-negative with a common
digit count, the forward primary scan yields records in non-decreasing
timestamp order.  (Without the digit-count condition the claim fails,
see the counterexample: 9 and 10 nanoseconds are both after the epoch yet
order reversed.) -/
theorem c2_key_order (a b : Int) (id1 id2 : String) (L : Nat) (db : DB)
    (ha : 0 ≤ a) (hab : a < b)
    (hlen : (decChars a.toNat).length = (decChars b.toNat).length)
    (hInv : db.Inv)
    (hts : ∀ kv ∈ db.primary, 0 ≤ kv.1.1 ∧ (decChars kv.1.1.toNat).length = L) :
    pkeyStr (a, id1) < pkeyStr (b, id2)
    ∧ (db.scanEntries.map (fun e => e.timestamp)).Chain' (· ≤ ·) := by
  have main : ∀ (x y : Int) (i1 i2 : String), 0 ≤ x → x < y →
      (decChars x.toNat).length = (decChars y.toNat).length →
      pkeyStr (x, i1) < pkeyStr (y, i2) := by
    intro x y i1 i2 hx hxy hl
    show List.Lex (· < ·) (pkeyStr (x, i1)) (pkeyStr (y, i2))
    unfold pkeyStr
    have hxd : intDecChars x = decChars x.toNat := by
      unfold intDecChars
      rw [if_neg (by omega)]
    have hyd : intDecChars y = decChars y.toNat := by
      unfold intDecChars
      rw [if_neg (by omega)]
    simp only [List.append_assoc]
    apply lex_append_left
    rw [hxd, hyd]
    have hlex := decChars_lex y.toNat x.toNat (by omega) hl
    exact lex_append_of_length_eq hlex hl _ _
  refine ⟨main a b id1 id2 ha hab hlen, ?_⟩
  have hpw : db.primary.Pairwise (fun u v => u.2.timestamp ≤ v.2.timestamp) := by
    refine hInv.sortedP.imp_of_mem ?_
    intro u v hu hv hlt
    have hwu := hInv.wfKeys u hu
    have hwv := hInv.wfKeys v hv
    have h0u := hts u hu
    have h0v := hts v hv
    by_contra hc
    push_neg at hc
    have : pkeyStr v.1 < pkeyStr u.1 := by
      have h1 : v.1 = (v.1.1, v.1.2) := rfl
      have h2 : u.1 = (u.1.1, u.1.2) := rfl
      rw [h1, h2]
      refine main v.1.1 u.1.1 v.1.2 u.1.2 h0v.1 ?_ ?_
      · rw [hwu, hwv] at *
        exact_mod_cast hc
      · rw [h0u.2, h0v.2]
    exact absurd hlt (lt_asymm this)
  have hpw2 : (db.primary.map (fun kv => kv.2.timestamp)).Pairwise (· ≤ ·) :=
    List.pairwise_map.mpr hpw
  have : db.scanEntries.map (fun e => e.timestamp)
      = db.primary.map (fun kv => kv.2.timestamp) := by
    unfold DB.scanEntries
    rw [List.map_map]
    rfl
  rw [this]
  exact hpw2.chain'

/-- C2 witness: `c2_key_order` at timestamps 11 < 12 (equal digit count)
with a two-record store. -/
theorem c2_key_order_witness :
    pkeyStr (11, "aaaaaaaaaaaaaaaa") < pkeyStr (12, "bbbbbbbbbbbbbbbb")
    ∧ ((applyOps DB.empty
        [Op.store { id := "aaaaaaaaaaaaaaaa", timestamp := 11,
                    level := "INFO", message := "m1", fields := [], raw := "r1" },
         Op.store { id := "bbbbbbbbbbbbbbbb", timestamp := 12,
                    level := "INFO", message := "m2", fields := [], raw := "r2" }]).scanEntries.map
        (fun e => e.timestamp)).Chain' (· ≤ ·) := by
  have hInv := applyOps_take_inv
    [Op.store { id := "aaaaaaaaaaaaaaaa", timestamp := 11,
                level := "INFO", message := "m1", fields := [], raw := "r1" },
     Op.store { id := "bbbbbbbbbbbbbbbb", timestamp := 12,
                level := "INFO", message := "m2", fields := [], raw := "r2" }]
    DB.empty DB.empty_inv (by simp [dbIds, DB.empty]) (by decide) (by decide) 2
  exact c2_key_order 11 12 "aaaaaaaaaaaaaaaa" "bbbbbbbbbbbbbbbb" 2 _
    (by decide) (by decide) (by decide) (by simpa using hInv) (by decide)

/-- C2 counterexample: the timestamps 9 and 10 nanoseconds are both after
the Unix epoch and 9 < 10, yet the primary key of the later record is
byte-wise *smaller* (`log:10:… < log:9:…`), so a forward scan would yield
the records out of timestamp order. -/
theorem c2_counterexample :
    (0 : Int) ≤ 9 ∧ (9 : Int) < 10
    ∧ ¬ (pkeyStr (9, "aaaaaaaaaaaaaaaa") < pkeyStr (10, "bbbbbbbbbbbbbbbb"))
    ∧ pkeyStr (10, "bbbbbbbbbbbbbbbb") < pkeyStr (9, "aaaaaaaaaaaaaaaa") := by
  refine ⟨by decide, by decide, ?_, ?_⟩
  · decide
  · decide

/-- C8 (amended).  Of the three claimed malformed shapes, only an
unmatched *opening* parenthesis and an empty parenthesized group make
`Parse` return an error, and that error is a bare message with no position
(there is no `QueryParseError` type in the code); a colon at line start
compiles successfully to a field filter with empty field name, and an
unmatched *closing* parenthesis after a complete term is silently ignored,
returning a compiled filter. -/
theorem c8_malformed_queries :
    luceneParse (fun _ => none) (fun _ => 0) "(a"
        = Except.error "expected closing parenthesis"
    ∧ luceneParse (fun _ => none) (fun _ => 0) "()"
        = Except.error "unexpected end of query"
    ∧ luceneParse (fun _ => none) (fun _ => 0) ":foo"
        = Except.ok (Filter.field "" "foo" false)
    ∧ luceneParse (fun _ => none) (fun _ => 0) "a)"
        = Except.ok (Filter.keyword "a") :=
  ⟨rfl, rfl, rfl, rfl⟩

/-- C8 counterexample: the query `:foo` — a colon at line start, one of the
claim's malformed shapes — does *not* return an error: `Parse` yields a
compiled field filter with an empty field name. -/
theorem c8_counterexample :
    luceneParse (fun _ => none) (fun _ => 0) ":foo"
      = Except.ok (Filter.field "" "foo" false) := rfl

/-- C3.  `Query` returns as `total` the number of stored records the filter
matches, independently of `limit`, and as the page exactly the matching
records of the forward scan from index `offset` on, at most `limit` many. -/
theorem c3_query_pagination (db : DB) (m : LogEntry → Bool) (limit offset : Nat) :
    db.query m limit offset =
      (((db.scanEntries.filter m).drop offset).take limit,
       (db.scanEntries.filter m).length) := by
  unfold DB.query
  rw [queryLoop_spec]
  simp

/-- Deleting one key of a Go map leaves the lookup of any other key
unchanged. -/
theorem mapGet_mapDel_ne {α : Type} (m : List (String × α)) (k k' : String)
    (h : k ≠ k') : mapGet (mapDel m k') k = mapGet m k := by
  induction m with
  | nil => rfl
  | cons kv rest ih =>
    by_cases hk : kv.1 = k'
    · have hkk : kv.1 ≠ k := by rw [hk]; exact Ne.symm h
      simp [mapDel, mapGet, List.filter_cons, List.find?_cons, hk, hkk, h, Ne.symm h] at ih ⊢
      simpa [mapDel, mapGet] using ih
    · by_cases hkk : kv.1 = k
      · simp [mapDel, mapGet, List.filter_cons, List.find?_cons, hk, hkk, h, Ne.symm h]
      · simp [mapDel, mapGet, List.filter_cons, List.find?_cons, hk, hkk, h, Ne.symm h] at ih ⊢
        simpa [mapDel, mapGet] using ih

theorem objGetStr_objDel_ne (m : List (String × JsonValue)) (k k' : String)
    (h : k ≠ k') : objGetStr (objDel m k') k = objGetStr m k := by
  unfold objGetStr objDel
  rw [mapGet_mapDel_ne m k k' h]

/-- The timestamp phase of the logfmt parser only touches the `time` and
`timestamp` keys of the field map. -/
theorem logfmtTsPhase_get_ne (pN p1 : String → Option Int)
    (f : List (String × String)) (k : String)
    (h1 : k ≠ "time") (h2 : k ≠ "timestamp") :
    mapGet (logfmtTsPhase pN p1 f).2 k = mapGet f k := by
  unfold logfmtTsPhase
  cases ht : mapGet f "time" with
  | some v =>
    cases hn : pN v with
    | some t =>
      simp only [ht, hn]
      exact mapGet_mapDel_ne f k "time" h1
    | none =>
      cases hp : p1 v with
      | some t =>
        simp only [ht, hn, hp]
        exact mapGet_mapDel_ne f k "time" h1
      | none =>
        simp only [ht, hn, hp]
        cases hts : mapGet (mapDel f "time") "timestamp" with
        | some w =>
          simp only [hts]
          rw [mapGet_mapDel_ne (mapDel f "time") k "timestamp" h2]
          exact mapGet_mapDel_ne f k "time" h1
        | none =>
          simp only [hts]
          exact mapGet_mapDel_ne f k "time" h1
  | none =>
    cases hts : mapGet f "timestamp" with
    | some w =>
      simp only [ht, hts]
      exact mapGet_mapDel_ne f k "timestamp" h2
    | none => simp only [ht, hts]

/-- The timestamp phase of the JSON parser only touches the `timestamp` and
`time` members of the object. -/
theorem jsonTsPhase_get_ne (p1 : String → Option Int)
    (obj : List (String × JsonValue)) (k : String)
    (h1 : k ≠ "timestamp") (h2 : k ≠ "time") :
    objGetStr (jsonTsPhase p1 obj).2 k = objGetStr obj k := by
  unfold jsonTsPhase
  cases ht : objGetStr obj "timestamp" with
  | some v =>
    simp only [ht]
    exact objGetStr_objDel_ne obj k "timestamp" h1
  | none =>
    cases hti : objGetStr obj "time" with
    | some v =>
      simp only [ht, hti]
      exact objGetStr_objDel_ne obj k "time" h2
    | none => simp only [ht, hti]

/-! ## Claim C5: level normalization in the two parsers -/

/-- C5 (amended).  If a line parsed by the logfmt parser carries a `level`
field with value `v`, the record's level is `NormalizeLevel v` (which maps
`ERR→ERROR`, `WARNING→WARN`, `DBG→DEBUG`, `CRITICAL|CRIT→FATAL`, and also
`INFORMATION→INFO`, `TRC→TRACE`, trimming and uppercasing everything else);
if an object parsed by the JSON parser carries a string `level` member with
value `v`, the record's level is merely `v` uppercased — the two parsers do
*not* apply the same rule. -/
theorem c5_level_rules (pN p1 : String → Option Int) (now : Int)
    (newId line : String) (v : String) (obj : List (String × JsonValue)) :
    (mapGet (parseLogfmt line) "level" = some v →
      (logfmtParse pN p1 now newId line).level = NormalizeLevel v)
    ∧ (objGetStr obj "level" = some v →
      (jsonParseObj p1 now newId line obj).level = strUpper v) := by
  constructor
  · intro hlev
    have hphase := logfmtTsPhase_get_ne pN p1 (parseLogfmt line) "level"
      (by decide) (by decide)
    unfold logfmtParse
    rcases hP : logfmtTsPhase pN p1 (parseLogfmt line) with ⟨ts1, f1⟩
    rw [hP] at hphase
    simp only [hP]
    rw [show mapGet f1 "level" = some v from hphase.trans hlev]
  · intro hlev
    have hphase := jsonTsPhase_get_ne p1 obj "level" (by decide) (by decide)
    unfold jsonParseObj
    rcases hP : jsonTsPhase p1 obj with ⟨ts0, o1⟩
    rw [hP] at hphase
    simp only [hP]
    rw [show objGetStr o1 "level" = some v from hphase.trans hlev]

/-- C5 witness: `c5_level_rules` applied to the concrete logfmt line
`level=dbg msg=x` and the concrete decoded object of `{"level":"dbg"}`. -/
theorem c5_level_rules_witness :
    (logfmtParse (fun _ => none) (fun _ => none) 0 "aabbccddeeff0011"
        "level=dbg msg=x").level = NormalizeLevel "dbg"
    ∧ (jsonParseObj (fun _ => none) 0 "aabbccddeeff0011" "\x7b\"level\":\"dbg\"\x7d"
        [("level", JsonValue.str "dbg")]).level = strUpper "dbg" :=
  ⟨(c5_level_rules (fun _ => none) (fun _ => none) 0 "aabbccddeeff0011"
      "level=dbg msg=x" "dbg" []).1 (by decide),
   (c5_level_rules (fun _ => none) (fun _ => none) 0 "aabbccddeeff0011"
      "\x7b\"level\":\"dbg\"\x7d" "dbg" [("level", JsonValue.str "dbg")]).2 (by decide)⟩

/-- C5 counterexample: the decoded JSON object of `{"level":"err"}` yields a
record with level `"ERR"`, while the claimed normalization maps `err` to
`"ERROR"` — the JSON parser does not apply the shared normalization rule. -/
theorem c5_counterexample :
    (jsonParseObj (fun _ => none) 0 "aabbccddeeff0011" "\x7b\"level\":\"err\"\x7d"
        [("level", JsonValue.str "err")]).level ≠ NormalizeLevel "err"
    ∧ (jsonParseObj (fun _ => none) 0 "aabbccddeeff0011" "\x7b\"level\":\"err\"\x7d"
        [("level", JsonValue.str "err")]).level = "ERR"
    ∧ NormalizeLevel "err" = "ERROR" := by
  refine ⟨?_, by decide, by decide⟩
  decide

/-! ## Claim C6: the raw fallback record -/

/-- C6 (amended).  For every non-empty line that neither parser accepts,
`Detector.Parse` produces a raw-fallback record whose level is `"INFO"`
(not the empty string), whose message equals the line, whose fields map is
empty, and whose timestamp is the ingest wall clock. -/
theorem c6_raw_fallback (decode : String → Option (List (String × JsonValue)))
    (pN p1 : String → Option Int) (now : Int) (newId line : String)
    (hlf : logfmtCanParse line = false) (hjs : decode line = none) :
    detectorParse decode pN p1 now newId line =
      .ok { id := newId, timestamp := now, level := "INFO", message := line,
            fields := [], raw := line } := by
  unfold detectorParse
  rw [hlf]
  simp [jsonCanParse, hjs]

/-- C6 witness: `c6_raw_fallback` at the concrete line `hello world`
(rejected by the logfmt predicate and not a JSON object). -/
theorem c6_raw_fallback_witness :
    detectorParse (fun _ => none) (fun _ => none) (fun _ => none)
        1700000000000000000 "aabbccddeeff0011" "hello world" =
      .ok { id := "aabbccddeeff0011", timestamp := 1700000000000000000,
            level := "INFO", message := "hello world", fields := [],
            raw := "hello world" } :=
  c6_raw_fallback (fun _ => none) (fun _ => none) (fun _ => none)
    1700000000000000000 "aabbccddeeff0011" "hello world" (by decide) rfl

/-- C6 counterexample: on the unparseable line `hello world` the raw
fallback's level is `"INFO"`, not the empty string the claim requires. -/
theorem c6_counterexample :
    detectorParse (fun _ => none) (fun _ => none) (fun _ => none)
        1700000000000000000 "ffeeddccbbaa0011" "hello world" =
      .ok { id := "ffeeddccbbaa0011", timestamp := 1700000000000000000,
            level := "INFO", message := "hello world", fields := [],
            raw := "hello world" }
    ∧ ("INFO" : String) ≠ "" :=
  ⟨by rfl, by decide⟩

/-! ## Claim C7: totality of Parse, ParseAs fails iff Accepts fails -/

/-- C7.  For every non-empty line, `Detector.Parse` succeeds (never returns
an error); and for each concrete format, `ParseWithFormat` fails exactly
when that format's acceptance predicate rejects the line. -/
theorem c7_parse_contract (decode : String → Option (List (String × JsonValue)))
    (pN p1 : String → Option Int) (now : Int) (newId line : String)
    (_hne : line ≠ "") :
    parseOk (detectorParse decode pN p1 now newId line) = true
    ∧ (parseOk (parseWithFormat decode pN p1 now newId line "json") = false
        ↔ jsonCanParse decode line = false)
    ∧ (parseOk (parseWithFormat decode pN p1 now newId line "logfmt") = false
        ↔ logfmtCanParse line = false) := by
  refine ⟨?_, ?_, ?_⟩
  · unfold detectorParse
    by_cases hlf : logfmtCanParse line
    · simp [hlf, parseOk]
    · by_cases hjs : jsonCanParse decode line
      · rcases hd : decode line with _ | obj
        · rw [jsonCanParse, hd] at hjs; simp at hjs
        · simp [hlf, hjs, jsonParserParse, hd, parseOk]
      · simp [hlf, hjs, parseOk]
  · unfold parseWithFormat
    by_cases hjs : jsonCanParse decode line
    · rcases hd : decode line with _ | obj
      · rw [jsonCanParse, hd] at hjs; simp at hjs
      · simp [hjs, jsonParserParse, hd, parseOk]
    · simp [hjs, parseOk]
  · unfold parseWithFormat
    by_cases hlf : logfmtCanParse line
    · simp [hlf, parseOk]
    · simp [hlf, parseOk]

/-- C7 witness: `c7_parse_contract` at the concrete line `hello world`,
with a JSON decoder that rejects every line. -/
theorem c7_parse_contract_witness :
    parseOk (detectorParse (fun _ => none) (fun _ => none) (fun _ => none)
        0 "aabbccddeeff0011" "hello world") = true
    ∧ (parseOk (parseWithFormat (fun _ => none) (fun _ => none) (fun _ => none)
        0 "aabbccddeeff0011" "hello world" "json") = false
        ↔ jsonCanParse (fun _ => none) "hello world" = false)
    ∧ (parseOk (parseWithFormat (fun _ => none) (fun _ => none) (fun _ => none)
        0 "aabbccddeeff0011" "hello world" "logfmt") = false
        ↔ logfmtCanParse "hello world" = false) :=
  c7_parse_contract (fun _ => none) (fun _ => none) (fun _ => none)
    0 "aabbccddeeff0011" "hello world" (by decide)

/-! ## Claim C10: missing fields under field filters and NOT -/

/-- C10.  For a field name other than `level` and `message` that is absent
from a record's fields map, the compiled `FieldFilter` (exact or substring)
does not match the record, so the negated filter does match it. -/
theorem c10_missing_field_not (e : LogEntry) (f v : String) (exact : Bool)
    (hl : f ≠ "level") (hm : f ≠ "message") (habs : e.getField f = none) :
    (Filter.field f v exact).Match e = false
    ∧ (Filter.not (Filter.field f v exact)).Match e = true := by
  have hres : fieldResolve e f = none := by
    unfold fieldResolve
    rw [if_neg hl, if_neg hm, habs]
    rfl
  constructor
  · unfold Filter.Match
    rw [hres]
  · show (!(Filter.Match (Filter.field f v exact) e)) = true
    rw [show (Filter.field f v exact).Match e = false by unfold Filter.Match; rw [hres]]
    rfl

/-- C10 witness: `c10_missing_field_not` on a concrete record without a
`status` field and the filter `status:500`. -/
theorem c10_missing_field_not_witness :
    (Filter.field "status" "500" false).Match
        { id := "aabbccddeeff0011", timestamp := 0, level := "ERROR",
          message := "boom", fields := [("service", FieldValue.str "api")],
          raw := "boom" } = false
    ∧ (Filter.not (Filter.field "status" "500" false)).Match
        { id := "aabbccddeeff0011", timestamp := 0, level := "ERROR",
          message := "boom", fields := [("service", FieldValue.str "api")],
          raw := "boom" } = true :=
  c10_missing_field_not
    { id := "aabbccddeeff0011", timestamp := 0, level := "ERROR",
      message := "boom", fields := [("service", FieldValue.str "api")],
      raw := "boom" } "status" "500" false
    (by decide) (by decide) (by decide)

/-! ## Claim C9: non-blocking fan-out with per-subscriber drops -/

/-- C9.  For every published record and registered subscriber: an accepting
subscriber with queue space receives the record at the back of its queue; an
accepting subscriber with a full queue is left unchanged (the record is
dropped for it alone); and every subscriber's outcome is
`broadcastOne e` of its own state — in particular a full queue at one
subscriber never affects delivery to any other subscriber, and the
registry size never changes. -/
theorem c9_broadcast_fanout (clients : List Client) (e : LogEntry)
    (i : Fin clients.length)
    (hacc : clientAccepts (clients.get i) e = true) :
    (broadcastLog clients e).length = clients.length
    ∧ ((clients.get i).send.length < sendCap →
        ((broadcastLog clients e).get (i.cast (by simp [broadcastLog]))).send
          = (clients.get i).send ++ [e])
    ∧ (sendCap ≤ (clients.get i).send.length →
        (broadcastLog clients e).get (i.cast (by simp [broadcastLog])) = clients.get i)
    ∧ (∀ j : Fin clients.length,
        (broadcastLog clients e).get (j.cast (by simp [broadcastLog]))
          = broadcastOne e (clients.get j)) := by
  refine ⟨by simp [broadcastLog], ?_, ?_, ?_⟩
  · intro hroom
    simp only [broadcastLog]
    rw [List.get_map]
    simp only [Fin.coe_cast, Fin.eta]
    show (broadcastOne e (clients.get i)).send = (clients.get i).send ++ [e]
    unfold broadcastOne
    rw [hacc, if_pos rfl, if_pos hroom]
  · intro hfull
    simp only [broadcastLog]
    rw [List.get_map]
    simp only [Fin.coe_cast, Fin.eta]
    show broadcastOne e (clients.get i) = clients.get i
    unfold broadcastOne
    rw [hacc, if_pos rfl, if_neg (by omega)]
  · intro j
    simp only [broadcastLog]
    rw [List.get_map]
    simp only [Fin.coe_cast, Fin.eta]

/-- C9 witness: `c9_broadcast_fanout` on a registry of two subscribers —
one accepting with room, one with some other state — and one record. -/
theorem c9_broadcast_fanout_witness :
    (broadcastLog
        [ { filter := none, send := [] },
          { filter := some (Filter.field "level" "ERROR" true), send := [] } ]
        { id := "aabbccddeeff0011", timestamp := 1, level := "INFO",
          message := "m", fields := [], raw := "m" }).length = 2
    ∧ (([] : List LogEntry).length < sendCap →
        ((broadcastLog
            [ { filter := none, send := [] },
              { filter := some (Filter.field "level" "ERROR" true), send := [] } ]
            { id := "aabbccddeeff0011", timestamp := 1, level := "INFO",
              message := "m", fields := [], raw := "m" }).get
          (Fin.cast (by simp [broadcastLog]) (⟨0, by decide⟩ : Fin 2))).send
          = [] ++ [{ id := "aabbccddeeff0011", timestamp := 1, level := "INFO",
                     message := "m", fields := [], raw := "m" }]) := by
  have h := c9_broadcast_fanout
    [ { filter := none, send := [] },
      { filter := some (Filter.field "level" "ERROR" true), send := [] } ]
    { id := "aabbccddeeff0011", timestamp := 1, level := "INFO",
      message := "m", fields := [], raw := "m" }
    (⟨0, by decide⟩ : Fin 2) (by decide)
  exact ⟨h.1, fun hr => h.2.1 hr⟩

end Peek
